import Mathlib

/-!
# A segregated free-list allocator (`mm.c`) as a shallow embedding

The heap is a byte-addressed memory `Nat → Nat` (address to byte).  Words are
four bytes (`int`), pointers are eight bytes, both little endian.  `size_t`
arithmetic is taken modulo `2 ^ 64`, `int` values read from a header are sign
extended when they are used as a `size_t` or added to a pointer.  A null
pointer is the address `0`.

The growth primitive `mem_sbrk` is not part of the source file; it is modelled
from the specification as a bump pointer `mem_brk` below a limit
`mem_max_addr`.

The two list walks of the program (`insert_block`, `find_fit`) can run forever
on a cyclic list, so every function that contains one takes a `fuel` argument
and returns `none` when the fuel is used up.
-/

namespace MM

/-! ## Constants and macros -/

def WSIZE : Nat := 4
def DSIZE : Nat := 8
def CHUNKSIZE : Nat := 1 <<< 12
def MIN_BLK_SIZE : Nat := 24
def START_SHIFT : Nat := 5
def NUM_CLASSES : Nat := 300

/-- Number of values of a `size_t` and of a pointer. -/
def SIZE_MOD : Nat := 2 ^ 64

/-- Number of values of an `int`. -/
def INT_MOD : Nat := 2 ^ 32

def MAX (x y : Nat) : Nat := if x > y then x else y

/-- The macro `ALIGN(size)`: `DSIZE * ((size + DSIZE + (DSIZE-1)) / DSIZE)` in `size_t`. -/
def ALIGN (size : Nat) : Nat :=
  (DSIZE * (((size + DSIZE + (DSIZE - 1)) % SIZE_MOD) / DSIZE)) % SIZE_MOD

/-- The macro `PACK(size, alloc)`. -/
def PACK (size alloc : Nat) : Nat := size ||| alloc

/-- Read of one `int` (four bytes, little endian), as its unsigned bit pattern. -/
def get4 (m : Nat → Nat) (a : Nat) : Nat :=
  m a % 256 + 256 * (m (a + 1) % 256) + 65536 * (m (a + 2) % 256)
    + 16777216 * (m (a + 3) % 256)

/-- Write of one `int`: the value is truncated to four bytes. -/
def put4 (m : Nat → Nat) (a v : Nat) : Nat → Nat := fun x =>
  if x = a then v % 256
  else if x = a + 1 then v / 256 % 256
  else if x = a + 2 then v / 65536 % 256
  else if x = a + 3 then v / 16777216 % 256
  else m x

/-- Read of one pointer (eight bytes, little endian). -/
def get8 (m : Nat → Nat) (a : Nat) : Nat :=
  get4 m a + INT_MOD * get4 m (a + 4)

/-- Write of one pointer. -/
def put8 (m : Nat → Nat) (a v : Nat) : Nat → Nat :=
  put4 (put4 m a (v % INT_MOD)) (a + 4) (v / INT_MOD)

/-- Conversion of the bit pattern of an `int` to `size_t` (sign extension). -/
def sext (w : Nat) : Nat :=
  if w < 2 ^ 31 then w else w + (SIZE_MOD - INT_MOD)

/-- The macro `GET(p)`. -/
def GET (m : Nat → Nat) (p : Nat) : Nat := get4 m p

/-- The macro `PUT(p, val)`. -/
def PUT (m : Nat → Nat) (p val : Nat) : Nat → Nat := put4 m p val

/-- The macro `GET_SIZE(p)`, `GET(p) & ~0x7`, as the `size_t` it converts to. -/
def GET_SIZE (m : Nat → Nat) (p : Nat) : Nat := sext (GET m p &&& 0xFFFFFFF8)

/-- The macro `GET_ALLOC(p)`, `GET(p) & 0x1`. -/
def GET_ALLOC (m : Nat → Nat) (p : Nat) : Nat := GET m p &&& 1

/-- The macro `HDRP(bp)`. -/
def HDRP (bp : Nat) : Nat := bp - WSIZE

/-- The macro `FTRP(bp)`. -/
def FTRP (m : Nat → Nat) (bp : Nat) : Nat :=
  (bp + GET_SIZE m (HDRP bp) + (SIZE_MOD - DSIZE)) % SIZE_MOD

/-- The macro `NEXT_BLKP(bp)`. -/
def NEXT_BLKP (m : Nat → Nat) (bp : Nat) : Nat :=
  (bp + GET_SIZE m (HDRP bp)) % SIZE_MOD

/-- The macro `PREV_BLKP(bp)`. -/
def PREV_BLKP (m : Nat → Nat) (bp : Nat) : Nat :=
  (bp + (SIZE_MOD - GET_SIZE m (HDRP bp - WSIZE))) % SIZE_MOD

/-- The macro `NEXT_FREEP(bp)` read. -/
def NEXT_FREEP (m : Nat → Nat) (bp : Nat) : Nat := get8 m (bp + DSIZE)

/-- The macro `PREV_FREEP(bp)` read. -/
def PREV_FREEP (m : Nat → Nat) (bp : Nat) : Nat := get8 m bp

/-- Assignment `NEXT_FREEP(bp) = v`. -/
def SET_NEXT_FREEP (m : Nat → Nat) (bp v : Nat) : Nat → Nat := put8 m (bp + DSIZE) v

/-- Assignment `PREV_FREEP(bp) = v`. -/
def SET_PREV_FREEP (m : Nat → Nat) (bp v : Nat) : Nat → Nat := put8 m bp v

/-! ## State -/

/-- The allocator's globals, the memory, and the state of the growth primitive. -/
structure State where
  /-- byte memory -/
  mem : Nat → Nat
  /-- the global `heap_listp` -/
  heap_listp : Nat
  /-- the global array `free_list`, indices below `NUM_CLASSES` -/
  free_list : Nat → Nat
  /-- current end of the heap region -/
  mem_brk : Nat
  /-- the growth primitive fails beyond this address -/
  mem_max_addr : Nat

/-- Modelled from the spec: the external growth primitive `grow(bytes)`, which
extends the region by exactly `bytes` at its high end and returns the start of
the new region, or fails when no more memory is available.  The source calls it
`mem_sbrk`; its definition (`memlib.c`) is not part of the repository's source
file. -/
def mem_sbrk (s : State) (incr : Nat) : Option (Nat × State) :=
  if s.mem_brk + incr ≤ s.mem_max_addr then
    some (s.mem_brk, { s with mem_brk := s.mem_brk + incr })
  else none

/-! ## Size classes -/

/-- The `while` loop of `get_size_class`; it runs at most `NUM_CLASSES - 1` times
because `size_class` grows by one in every round. -/
def get_size_class_loop : Nat → Nat → Nat → Nat
  | 0, _, size_class => size_class
  | n + 1, asize, size_class =>
    if size_class < NUM_CLASSES - 1 ∧ asize > 1 then
      get_size_class_loop n (asize >>> 1) (size_class + 1)
    else size_class

def get_size_class (asize : Nat) : Nat :=
  get_size_class_loop (NUM_CLASSES - 1) (asize >>> START_SHIFT) 0

/-! ## Free-list manager -/

/-- The scan of `insert_block`: returns `(current_ptr, insert_ptr)`. -/
def insert_scan : Nat → (Nat → Nat) → Nat → Nat → Nat → Option (Nat × Nat)
  | 0, _, _, _, _ => none
  | fuel + 1, m, size, current_ptr, insert_ptr =>
    if current_ptr ≠ 0 ∧ GET_SIZE m (HDRP current_ptr) < size then
      insert_scan fuel m size (NEXT_FREEP m current_ptr) current_ptr
    else some (current_ptr, insert_ptr)

def insert_block (fuel : Nat) (s : State) (bp : Nat) : Option State :=
  let size := GET_SIZE s.mem (HDRP bp)
  let size_class := get_size_class size
  match insert_scan fuel s.mem size (s.free_list size_class) 0 with
  | none => none
  | some (current_ptr, insert_ptr) =>
    if current_ptr = 0 ∧ insert_ptr = 0 then
      let m1 := SET_PREV_FREEP s.mem bp 0
      let m2 := SET_NEXT_FREEP m1 bp 0
      some { s with mem := m2, free_list := Function.update s.free_list size_class bp }
    else if current_ptr ≠ 0 ∧ insert_ptr = 0 then
      let m1 := SET_NEXT_FREEP s.mem bp (s.free_list size_class)
      let m2 := SET_PREV_FREEP m1 bp 0
      let m3 := SET_PREV_FREEP m2 (s.free_list size_class) bp
      some { s with mem := m3, free_list := Function.update s.free_list size_class bp }
    else if current_ptr = 0 ∧ insert_ptr ≠ 0 then
      let m1 := SET_NEXT_FREEP s.mem insert_ptr bp
      let m2 := SET_NEXT_FREEP m1 bp 0
      let m3 := SET_PREV_FREEP m2 bp insert_ptr
      some { s with mem := m3 }
    else
      let m1 := SET_NEXT_FREEP s.mem insert_ptr bp
      let m2 := SET_PREV_FREEP m1 current_ptr bp
      let m3 := SET_NEXT_FREEP m2 bp current_ptr
      let m4 := SET_PREV_FREEP m3 bp insert_ptr
      some { s with mem := m4 }

def delete_block (s : State) (bp : Nat) : State :=
  let size_class := get_size_class (GET_SIZE s.mem (HDRP bp))
  let s1 : State :=
    if PREV_FREEP s.mem bp ≠ 0 then
      { s with mem := SET_NEXT_FREEP s.mem (PREV_FREEP s.mem bp) (NEXT_FREEP s.mem bp) }
    else
      { s with free_list := Function.update s.free_list size_class (NEXT_FREEP s.mem bp) }
  let s2 : State :=
    if NEXT_FREEP s1.mem bp ≠ 0 then
      { s1 with mem := SET_PREV_FREEP s1.mem (NEXT_FREEP s1.mem bp) (PREV_FREEP s1.mem bp) }
    else s1
  let m3 := SET_NEXT_FREEP s2.mem bp 0
  let m4 := SET_PREV_FREEP m3 bp 0
  { s2 with mem := m4 }

/-! ## Coalescing -/

def coalesce (fuel : Nat) (s : State) (ptr : Nat) : Option (Nat × State) :=
  let prev_alloc := GET_ALLOC s.mem (HDRP (PREV_BLKP s.mem ptr))
  let next_alloc := GET_ALLOC s.mem (HDRP (NEXT_BLKP s.mem ptr))
  let size := GET_SIZE s.mem (HDRP ptr)
  let r : Nat × State :=
    if prev_alloc ≠ 0 ∧ next_alloc ≠ 0 then
      (ptr, s)
    else if prev_alloc ≠ 0 ∧ next_alloc = 0 then
      let size := (size + GET_SIZE s.mem (HDRP (NEXT_BLKP s.mem ptr))) % SIZE_MOD
      let s1 := delete_block s (NEXT_BLKP s.mem ptr)
      let m2 := PUT s1.mem (HDRP ptr) (PACK size 0)
      let m3 := PUT m2 (FTRP m2 ptr) (PACK size 0)
      (ptr, { s1 with mem := m3 })
    else if prev_alloc = 0 ∧ next_alloc ≠ 0 then
      let size := (size + GET_SIZE s.mem (HDRP (PREV_BLKP s.mem ptr))) % SIZE_MOD
      let s1 := delete_block s (PREV_BLKP s.mem ptr)
      let ptr := PREV_BLKP s1.mem ptr
      let m2 := PUT s1.mem (HDRP ptr) (PACK size 0)
      let m3 := PUT m2 (FTRP m2 ptr) (PACK size 0)
      (ptr, { s1 with mem := m3 })
    else
      let s1 := delete_block s (PREV_BLKP s.mem ptr)
      let s2 := delete_block s1 (NEXT_BLKP s1.mem ptr)
      let size := (size + (GET_SIZE s2.mem (HDRP (PREV_BLKP s2.mem ptr))
                    + GET_SIZE s2.mem (HDRP (NEXT_BLKP s2.mem ptr))) % SIZE_MOD) % SIZE_MOD
      let ptr := PREV_BLKP s2.mem ptr
      let m3 := PUT s2.mem (HDRP ptr) (PACK size 0)
      let m4 := PUT m3 (FTRP m3 ptr) (PACK size 0)
      (ptr, { s2 with mem := m4 })
  match insert_block fuel r.2 r.1 with
  | none => none
  | some s' => some (r.1, s')

/-! ## Heap extension, placement, search -/

/-- The function `extend_heap`; the result pointer `0` is `NULL`. -/
def extend_heap (fuel : Nat) (s : State) (words : Nat) : Option (Nat × State) :=
  let size := if words % 2 ≠ 0 then ((words + 1) * WSIZE) % SIZE_MOD
              else (words * WSIZE) % SIZE_MOD
  let size := MAX size MIN_BLK_SIZE
  match mem_sbrk s size with
  | none => some (0, s)
  | some (bp, s1) =>
    let m1 := PUT s1.mem (HDRP bp) (PACK size 0)
    let m2 := PUT m1 (FTRP m1 bp) (PACK size 0)
    let m3 := PUT m2 (HDRP (NEXT_BLKP m2 bp)) (PACK 0 1)
    coalesce fuel { s1 with mem := m3 } bp

def place (fuel : Nat) (s : State) (bp asize : Nat) : Option (Nat × State) :=
  let csize := GET_SIZE s.mem (HDRP bp)
  let remainder := (csize + (SIZE_MOD - asize)) % SIZE_MOD
  let s1 := delete_block s bp
  if remainder < MIN_BLK_SIZE then
    let m2 := PUT s1.mem (HDRP bp) (PACK csize 1)
    let m3 := PUT m2 (FTRP m2 bp) (PACK csize 1)
    some (bp, { s1 with mem := m3 })
  else if asize > 100 then
    let m2 := PUT s1.mem (HDRP bp) (PACK remainder 0)
    let m3 := PUT m2 (FTRP m2 bp) (PACK remainder 0)
    let m4 := PUT m3 (HDRP (NEXT_BLKP m3 bp)) (PACK asize 1)
    let m5 := PUT m4 (FTRP m4 (NEXT_BLKP m4 bp)) (PACK asize 1)
    match coalesce fuel { s1 with mem := m5 } bp with
    | none => none
    | some (_, s2) => some (NEXT_BLKP s2.mem bp, s2)
  else
    let m2 := PUT s1.mem (HDRP bp) (PACK asize 1)
    let m3 := PUT m2 (FTRP m2 bp) (PACK asize 1)
    let m4 := PUT m3 (HDRP (NEXT_BLKP m3 bp)) (PACK remainder 0)
    let m5 := PUT m4 (FTRP m4 (NEXT_BLKP m4 bp)) (PACK remainder 0)
    match coalesce fuel { s1 with mem := m5 } (NEXT_BLKP m5 bp) with
    | none => none
    | some (_, s2) => some (bp, s2)

/-- The inner loop of `find_fit` over one bucket; the result `0` is "no fit in
this bucket". -/
def find_fit_list : Nat → (Nat → Nat) → Nat → Nat → Option Nat
  | 0, _, _, _ => none
  | fuel + 1, m, asize, bp =>
    if bp ≠ 0 ∧ GET_ALLOC m (HDRP bp) = 0 then
      if asize ≤ GET_SIZE m (HDRP bp) then some bp
      else find_fit_list fuel m asize (NEXT_FREEP m bp)
    else some 0

/-- The outer loop of `find_fit` from bucket `size_class` on; `n` bounds the
number of buckets still to visit. -/
def find_fit_from (fuel : Nat) (s : State) (asize : Nat) : Nat → Nat → Option Nat
  | 0, _ => some 0
  | n + 1, size_class =>
    if size_class < NUM_CLASSES then
      match find_fit_list fuel s.mem asize (s.free_list size_class) with
      | none => none
      | some 0 => find_fit_from fuel s asize n (size_class + 1)
      | some bp => some bp
    else some 0

def find_fit (fuel : Nat) (s : State) (asize : Nat) : Option Nat :=
  find_fit_from fuel s asize NUM_CLASSES (get_size_class asize)

/-! ## Public operations -/

/-- The function `mm_init`; on failure `heap_listp` keeps the value `(void *) -1`
that the assignment inside the test gave it. -/
def mm_init (s : State) : Int × State :=
  match mem_sbrk s (4 * DSIZE) with
  | none => (-1, { s with heap_listp := SIZE_MOD - 1 })
  | some (p, s1) =>
    let fl : Nat → Nat := fun i => if i < NUM_CLASSES then 0 else s1.free_list i
    let m1 := PUT s1.mem p 0
    let m2 := PUT m1 (p + WSIZE) (PACK MIN_BLK_SIZE 1)
    let m3 := PUT m2 (p + DSIZE) 0
    let m4 := PUT m3 (p + DSIZE * 2) 0
    let m5 := PUT m4 (p + DSIZE * 3) (PACK MIN_BLK_SIZE 1)
    let m6 := PUT m5 (p + DSIZE * 3 + WSIZE) (PACK 0 1)
    (0, { s1 with heap_listp := p, free_list := fl, mem := m6 })

/-- The function `mm_malloc`; the result pointer `0` is `NULL`. -/
def mm_malloc (fuel : Nat) (s : State) (size : Nat) : Option (Nat × State) :=
  let s := if s.heap_listp = 0 then (mm_init s).2 else s
  if size = 0 then some (0, s)
  else
    let asize := MAX (ALIGN size) MIN_BLK_SIZE
    match find_fit fuel s asize with
    | none => none
    | some bp =>
      if bp ≠ 0 then place fuel s bp asize
      else
        let extendsize := MAX asize CHUNKSIZE
        match extend_heap fuel s (extendsize / WSIZE) with
        | none => none
        | some (bp, s1) =>
          if bp = 0 then some (0, s1) else place fuel s1 bp asize

def mm_free (fuel : Nat) (s : State) (bp : Nat) : Option State :=
  if bp = 0 then some s
  else
    let s := if s.heap_listp = 0 then (mm_init s).2 else s
    let size := GET_SIZE s.mem (HDRP bp)
    let m1 := PUT s.mem (HDRP bp) (PACK size 0)
    let m2 := PUT m1 (FTRP m1 bp) (PACK size 0)
    match coalesce fuel { s with mem := m2 } bp with
    | none => none
    | some (_, s') => some s'

/-! ## The heap as a list of blocks -/

/-- One block of the heap: payload address, size (header and footer included),
allocation bit. -/
structure Blk where
  bp : Nat
  sz : Nat
  al : Bool
deriving DecidableEq

/-- The word `PACK(size, alloc)` that the block's header and footer hold. -/
def Blk.tag (b : Blk) : Nat := b.sz + (if b.al then 1 else 0)

/-- The blocks lie back to back: the first starts at `a`, the last ends at `e`. -/
def Chain : Nat → List Blk → Nat → Prop
  | a, [], e => a = e
  | a, b :: bs, e => b.bp = a ∧ Chain (a + b.sz) bs e

/-- Header and footer of `b` in memory `m`. -/
def TagOK (m : Nat → Nat) (b : Blk) : Prop :=
  get4 m (b.bp - 4) = b.tag ∧ get4 m (b.bp + b.sz - 8) = b.tag ∧ b.sz % 8 = 0 ∧ 24 ≤ b.sz

/-- The prologue block of a heap that starts at `base`. -/
def prologue (base : Nat) : Blk := ⟨base + 8, 24, true⟩

/-- The region from `heap_listp` to `mem_brk` is the padding word, the blocks
`bs` (the prologue first), and the epilogue header; the growth limit is within
the range of a header word. -/
structure Tiled (s : State) (bs : List Blk) : Prop where
  base_pos : 0 < s.heap_listp
  brk_le : s.mem_brk ≤ s.mem_max_addr
  max_lt : s.mem_max_addr < s.heap_listp + 2 ^ 31
  max_lt64 : s.mem_max_addr < 2 ^ 64
  head : bs.head? = some (prologue s.heap_listp)
  chain : Chain (s.heap_listp + 8) bs s.mem_brk
  tags : ∀ b ∈ bs, TagOK s.mem b
  epi : get4 s.mem (s.mem_brk - 4) = 1

/-- Address of the first block of `l`, or `d` when `l` is empty. -/
def hd (l : List Blk) (d : Nat) : Nat :=
  match l with
  | [] => d
  | b :: _ => b.bp

/-- Address of the last block of `l`, or `d` when `l` is empty. -/
def lst : List Blk → Nat → Nat
  | [], d => d
  | b :: rest, _ => lst rest b.bp

/-- The pair of writes `PUT(HDRP(bp), PACK(size, alloc)); PUT(FTRP(bp), PACK(size, alloc))`
by which the program retags a block. -/
@[reducible] def write_block (m : Nat → Nat) (bp size alloc : Nat) : Nat → Nat :=
  PUT (PUT m (HDRP bp) (PACK size alloc)) (FTRP (PUT m (HDRP bp) (PACK size alloc)) bp)
    (PACK size alloc)

/-- The memories `m` and `m'` hold the same bytes outside `[lo, hi)`. -/
def agreeOut (m m' : Nat → Nat) (lo hi : Nat) : Prop :=
  ∀ x, x < lo ∨ hi ≤ x → m' x = m x

/-- A doubly linked list segment in memory: the blocks `l` in order, the first
one's `prev` link is `prev`, the last one's `next` link is `nxt`. -/
def Seg (m : Nat → Nat) : Nat → List Blk → Nat → Prop
  | _, [], _ => True
  | prev, b :: rest, nxt =>
    PREV_FREEP m b.bp = prev ∧ NEXT_FREEP m b.bp = hd rest nxt ∧ Seg m b.bp rest nxt

/-- The list `l` with `b` placed before the first entry whose size is at least
the size of `b`. -/
def sortedInsert (b : Blk) (l : List Blk) : List Blk :=
  l.takeWhile (fun z => decide (z.sz < b.sz)) ++ b :: l.dropWhile (fun z => decide (z.sz < b.sz))

/-- The bucket array `free_list` holds the lists `L k`. -/
structure Buckets (s : State) (bs : List Blk) (L : Nat → List Blk) : Prop where
  head : ∀ k, k < NUM_CLASSES → s.free_list k = hd (L k) 0
  seg : ∀ k, k < NUM_CLASSES → Seg s.mem 0 (L k) 0
  mem : ∀ k, k < NUM_CLASSES → ∀ b ∈ L k, b ∈ bs ∧ b.al = false ∧ get_size_class b.sz = k
  sorted : ∀ k, k < NUM_CLASSES → (L k).Pairwise (fun a b => a.sz ≤ b.sz)
  nodup : ∀ k, k < NUM_CLASSES → (L k).Nodup

/-- The allocator invariant with the free blocks `pend` not (yet) in a bucket. -/
structure Inv (s : State) (bs : List Blk) (L : Nat → List Blk) (pend : List Blk) : Prop where
  tiled : Tiled s bs
  buckets : Buckets s bs L
  cover : ∀ b ∈ bs, b.al = false → (b ∈ L (get_size_class b.sz) ↔ b ∉ pend)

/-- Allocation bit of the block after a run of blocks: of the first block of
`post`, or of the epilogue header when `post` is empty. -/
def nextAl : List Blk → Bool
  | [] => true
  | y :: _ => y.al

/-- No two physically adjacent blocks are both free. -/
def NoAdjFree (bs : List Blk) : Prop :=
  bs.Chain' (fun a b => a.al = true ∨ b.al = true)

/-- The block list after `coalesce` on the free block `b` whose physical
predecessor is `x` and whose successors are `post`: `b` absorbs each free
neighbour. -/
def coalesceBlocks (pre : List Blk) (x b : Blk) (post : List Blk) : List Blk :=
  match x.al, post with
  | true, [] => pre ++ [x, b]
  | true, y :: post' =>
    if y.al then pre ++ x :: b :: y :: post'
    else pre ++ x :: ⟨b.bp, b.sz + y.sz, false⟩ :: post'
  | false, [] => pre ++ [⟨x.bp, x.sz + b.sz, false⟩]
  | false, y :: post' =>
    if y.al then pre ++ ⟨x.bp, x.sz + b.sz, false⟩ :: y :: post'
    else pre ++ ⟨x.bp, x.sz + b.sz + y.sz, false⟩ :: post'

/-- The block that `coalesce` returns. -/
def coalescePtr (x b : Blk) : Nat := if x.al then b.bp else x.bp

/-- The first block of a bucket list that is large enough. -/
def fitIn (l : List Blk) (asize : Nat) : Option Blk :=
  l.find? (fun z => decide (asize ≤ z.sz))

/-- The block `find_fit` selects: the first fit of the first bucket, from
`size_class` on, that has one; `n` bounds the number of buckets. -/
def firstFit (L : Nat → List Blk) (asize : Nat) : Nat → Nat → Option Blk
  | 0, _ => none
  | n + 1, size_class =>
    if size_class < NUM_CLASSES then
      match fitIn (L size_class) asize with
      | some z => some z
      | none => firstFit L asize n (size_class + 1)
    else none

/-- A well-formed, initialised heap. -/
def WF (s : State) : Prop := ∃ bs L, Inv s bs L [] ∧ NoAdjFree bs

theorem get4_lt (m : Nat → Nat) (a : Nat) : get4 m a < 2 ^ 32 := by
  unfold get4; omega

theorem get4_put4_same (m : Nat → Nat) (a v : Nat) : get4 (put4 m a v) a = v % 2 ^ 32 := by
  simp [get4, put4]; omega

theorem get4_put4_ne (m : Nat → Nat) (a b v : Nat) (h : a + 4 ≤ b ∨ b + 4 ≤ a) :
    get4 (put4 m a v) b = get4 m b := by
  unfold get4 put4
  have h0 : b ≠ a := by omega
  have h1 : b ≠ a + 1 := by omega
  have h2 : b ≠ a + 2 := by omega
  have h3 : b ≠ a + 3 := by omega
  have h4 : b + 1 ≠ a := by omega
  have h5 : b + 1 ≠ a + 1 := by omega
  have h6 : b + 1 ≠ a + 2 := by omega
  have h7 : b + 1 ≠ a + 3 := by omega
  have h8 : b + 2 ≠ a := by omega
  have h9 : b + 2 ≠ a + 1 := by omega
  have h10 : b + 2 ≠ a + 2 := by omega
  have h11 : b + 2 ≠ a + 3 := by omega
  have h12 : b + 3 ≠ a := by omega
  have h13 : b + 3 ≠ a + 1 := by omega
  have h14 : b + 3 ≠ a + 2 := by omega
  have h15 : b + 3 ≠ a + 3 := by omega
  simp only [h0, h1, h2, h3, h4, h5, h6, h7, h8, h9, h10, h11, h12, h13, h14, h15, if_false]

theorem get8_lt (m : Nat → Nat) (a : Nat) : get8 m a < 2 ^ 64 := by
  have h1 := get4_lt m a
  have h2 := get4_lt m (a + 4)
  unfold get8 INT_MOD; omega

theorem get8_put8_same (m : Nat → Nat) (a v : Nat) : get8 (put8 m a v) a = v % 2 ^ 64 := by
  unfold get8 put8
  rw [get4_put4_same, get4_put4_ne _ _ _ _ (by omega), get4_put4_same]
  unfold INT_MOD; omega

theorem get8_put8_ne (m : Nat → Nat) (a b v : Nat) (h : a + 8 ≤ b ∨ b + 8 ≤ a) :
    get8 (put8 m a v) b = get8 m b := by
  unfold get8 put8
  rw [get4_put4_ne _ _ _ _ (by omega), get4_put4_ne _ _ _ _ (by omega),
    get4_put4_ne _ _ _ _ (by omega), get4_put4_ne _ _ _ _ (by omega)]

theorem get4_put8_ne (m : Nat → Nat) (a b v : Nat) (h : a + 8 ≤ b ∨ b + 4 ≤ a) :
    get4 (put8 m a v) b = get4 m b := by
  unfold put8
  rw [get4_put4_ne _ _ _ _ (by omega), get4_put4_ne _ _ _ _ (by omega)]

theorem get8_put4_ne (m : Nat → Nat) (a b v : Nat) (h : a + 4 ≤ b ∨ b + 8 ≤ a) :
    get8 (put4 m a v) b = get8 m b := by
  unfold get8
  rw [get4_put4_ne _ _ _ _ (by omega), get4_put4_ne _ _ _ _ (by omega)]

theorem and_one (w : Nat) : w &&& 1 = w % 2 := Nat.and_one_is_mod w

theorem and_mask (w : Nat) (h : w < 2 ^ 32) : w &&& 0xFFFFFFF8 = w - w % 8 := by
  apply Nat.eq_of_testBit_eq; intro i
  have e1 : w - w % 8 = 2 ^ 3 * (w / 2 ^ 3) := by omega
  have e2 : (0xFFFFFFF8 : Nat) = 2 ^ 3 * (2 ^ 29 - 1) := by norm_num
  rw [Nat.testBit_and, e1, e2, Nat.testBit_mul_pow_two, Nat.testBit_mul_pow_two,
    ← Nat.shiftRight_eq_div_pow, Nat.testBit_shiftRight, Nat.testBit_two_pow_sub_one]
  by_cases h3 : 3 ≤ i
  · by_cases h32 : i < 32
    · have : i - 3 < 29 := by omega
      simp [h3, this, show 3 + (i - 3) = i by omega]
    · have hw : w.testBit i = false := by
        apply Nat.testBit_lt_two_pow
        calc w < 2 ^ 32 := h
          _ ≤ 2 ^ i := Nat.pow_le_pow_right (by norm_num) (by omega)
      simp [hw, show 3 + (i - 3) = i by omega]
  · simp [h3]

theorem lor_one_of_even (n : Nat) (h : n % 2 = 0) : n ||| 1 = n + 1 := by
  apply Nat.eq_of_testBit_eq; intro i
  rw [Nat.testBit_or]
  cases i with
  | zero => simp [Nat.testBit_zero, h]; omega
  | succ j =>
    simp [Nat.testBit_succ]
    congr 1; omega

theorem PACK_zero (n : Nat) : PACK n 0 = n := by simp [PACK]

theorem PACK_one (n : Nat) (h : n % 8 = 0) : PACK n 1 = n + 1 :=
  lor_one_of_even n (by omega)

theorem Blk.tag_lt (b : Blk) (h : b.sz < 2 ^ 31) : b.tag < 2 ^ 32 := by
  unfold Blk.tag; split <;> omega

theorem GET_SIZE_of_tag (m : Nat → Nat) (p : Nat) (b : Blk) (h : get4 m p = b.tag)
    (h8 : b.sz % 8 = 0) (hlt : b.sz < 2 ^ 31) : GET_SIZE m p = b.sz := by
  unfold GET_SIZE GET sext
  rw [and_mask _ (get4_lt m p), h]
  unfold Blk.tag
  split <;> (split <;> omega)

theorem GET_ALLOC_of_tag (m : Nat → Nat) (p : Nat) (b : Blk) (h : get4 m p = b.tag)
    (h8 : b.sz % 8 = 0) : GET_ALLOC m p = if b.al then 1 else 0 := by
  unfold GET_ALLOC GET
  rw [and_one, h]
  unfold Blk.tag
  split <;> omega

/-! ### Layout -/

theorem Chain_append (xs ys : List Blk) (a e : Nat) :
    Chain a (xs ++ ys) e ↔ ∃ mid, Chain a xs mid ∧ Chain mid ys e := by
  induction xs generalizing a with
  | nil => simp [Chain]
  | cons x xs ih =>
    show (x.bp = a ∧ Chain (a + x.sz) (xs ++ ys) e) ↔ _
    rw [ih]
    constructor
    · rintro ⟨h1, mid, h2, h3⟩; exact ⟨mid, ⟨h1, h2⟩, h3⟩
    · rintro ⟨mid, ⟨h1, h2⟩, h3⟩; exact ⟨h1, mid, h2, h3⟩

theorem Chain_le (bs : List Blk) (a e : Nat) (h : Chain a bs e) : a ≤ e := by
  induction bs generalizing a with
  | nil => simp [Chain] at h; omega
  | cons x xs ih =>
    have := ih _ h.2
    omega

theorem Chain_bounds (bs : List Blk) (a e : Nat) (h : Chain a bs e) :
    ∀ b ∈ bs, a ≤ b.bp ∧ b.bp + b.sz ≤ e := by
  induction bs generalizing a with
  | nil => simp
  | cons x xs ih =>
    intro b hb
    rcases List.mem_cons.1 hb with rfl | hb
    · have := Chain_le _ _ _ h.2
      have := h.1
      omega
    · have := ih _ h.2 b hb
      omega

theorem Chain_unique_end (bs : List Blk) (a e e' : Nat) (h : Chain a bs e) (h' : Chain a bs e') :
    e = e' := by
  induction bs generalizing a with
  | nil => simp [Chain] at h h'; omega
  | cons x xs ih => exact ih _ h.2 h'.2

/-- Two blocks of a chain of non-empty blocks are equal or disjoint. -/
theorem Chain_disjoint (bs : List Blk) (a e : Nat) (h : Chain a bs e)
    (hs : ∀ b ∈ bs, 0 < b.sz) :
    ∀ b ∈ bs, ∀ z ∈ bs, b = z ∨ b.bp + b.sz ≤ z.bp ∨ z.bp + z.sz ≤ b.bp := by
  induction bs generalizing a with
  | nil => simp
  | cons x xs ih =>
    intro b hb z hz
    have hx := h.1
    have hbnd := Chain_bounds _ _ _ h.2
    have hxs := hs x (List.mem_cons_self _ _)
    rcases List.mem_cons.1 hb with hb1 | hb1
    · rcases List.mem_cons.1 hz with hz1 | hz1
      · left; rw [hb1, hz1]
      · have := hbnd z hz1; right; left; rw [hb1]; omega
    · rcases List.mem_cons.1 hz with hz1 | hz1
      · have := hbnd b hb1; right; right; rw [hz1]; omega
      · exact ih _ h.2 (fun b hb => hs b (List.mem_cons_of_mem _ hb)) b hb1 z hz1

theorem hd_append (xs ys : List Blk) (d : Nat) : hd (xs ++ ys) d = hd xs (hd ys d) := by
  cases xs <;> rfl

theorem lst_append (xs ys : List Blk) (d : Nat) : lst (xs ++ ys) d = lst ys (lst xs d) := by
  induction xs generalizing d with
  | nil => rfl
  | cons x xs ih => exact ih _

theorem Seg_append (m : Nat → Nat) (xs ys : List Blk) (p n : Nat) :
    Seg m p (xs ++ ys) n ↔ Seg m p xs (hd ys n) ∧ Seg m (lst xs p) ys n := by
  induction xs generalizing p with
  | nil => simp [Seg, lst]
  | cons x xs ih =>
    show (PREV_FREEP m x.bp = p ∧ NEXT_FREEP m x.bp = hd (xs ++ ys) n ∧ Seg m x.bp (xs ++ ys) n) ↔
      (PREV_FREEP m x.bp = p ∧ NEXT_FREEP m x.bp = hd xs (hd ys n) ∧ Seg m x.bp xs (hd ys n)) ∧
        Seg m (lst xs x.bp) ys n
    rw [ih, hd_append]
    tauto

/-- The links of the blocks of `l` are the same in `m'` as in `m`. -/
theorem Seg_frame (m m' : Nat → Nat) (l : List Blk) (p n : Nat)
    (h : ∀ z ∈ l, get8 m' z.bp = get8 m z.bp ∧ get8 m' (z.bp + 8) = get8 m (z.bp + 8))
    (hs : Seg m p l n) : Seg m' p l n := by
  induction l generalizing p with
  | nil => trivial
  | cons x xs ih =>
    obtain ⟨h1, h2, h3⟩ := hs
    have hx := h x (List.mem_cons_self _ _)
    refine ⟨?_, ?_, ih _ (fun z hz => h z (List.mem_cons_of_mem _ hz)) h3⟩
    · unfold PREV_FREEP at *; rw [hx.1, h1]
    · unfold NEXT_FREEP DSIZE at *; rw [hx.2, h2]

/-- Redirect the `next` link of the last block. -/
theorem Seg_set_next (m m' : Nat → Nat) (xs : List Blk) (x : Blk) (p n n' : Nat)
    (h : ∀ z ∈ xs, get8 m' z.bp = get8 m z.bp ∧ get8 m' (z.bp + 8) = get8 m (z.bp + 8))
    (hx1 : get8 m' x.bp = get8 m x.bp) (hx2 : get8 m' (x.bp + 8) = n')
    (hs : Seg m p (xs ++ [x]) n) : Seg m' p (xs ++ [x]) n' := by
  rw [Seg_append] at hs ⊢
  obtain ⟨h1, h2, -, -⟩ := hs
  refine ⟨Seg_frame m m' xs p _ h h1, ?_, ?_, trivial⟩
  · unfold PREV_FREEP at *; rw [hx1, h2]
  · unfold NEXT_FREEP DSIZE; exact hx2

/-- Redirect the `prev` link of the first block. -/
theorem Seg_set_prev (m m' : Nat → Nat) (xs : List Blk) (x : Blk) (p p' n : Nat)
    (h : ∀ z ∈ xs, get8 m' z.bp = get8 m z.bp ∧ get8 m' (z.bp + 8) = get8 m (z.bp + 8))
    (hx1 : get8 m' x.bp = p') (hx2 : get8 m' (x.bp + 8) = get8 m (x.bp + 8))
    (hs : Seg m p (x :: xs) n) : Seg m' p' (x :: xs) n := by
  obtain ⟨-, h2, h3⟩ := hs
  refine ⟨hx1, ?_, Seg_frame m m' xs _ _ h h3⟩
  unfold NEXT_FREEP DSIZE at *; rw [hx2, h2]

theorem exists_snoc (l : List Blk) (h : l ≠ []) : ∃ xs x, l = xs ++ [x] := by
  refine ⟨l.dropLast, l.getLast h, ?_⟩
  exact (List.dropLast_append_getLast h).symm

theorem lst_snoc (xs : List Blk) (x : Blk) (d : Nat) : lst (xs ++ [x]) d = x.bp := by
  rw [lst_append]; rfl

theorem Tiled.geo {s : State} {bs : List Blk} (h : Tiled s bs) {z : Blk} (hz : z ∈ bs) :
    s.heap_listp + 8 ≤ z.bp ∧ z.bp + z.sz ≤ s.mem_brk ∧ z.sz % 8 = 0 ∧ 24 ≤ z.sz ∧
      z.sz < 2 ^ 31 ∧ z.bp + z.sz < 2 ^ 64 := by
  have h1 := Chain_bounds _ _ _ h.chain z hz
  have h2 := h.tags z hz
  have h3 := h.brk_le
  have h4 := h.max_lt
  have h5 := h.max_lt64
  obtain ⟨-, -, h6, h7⟩ := h2
  refine ⟨h1.1, h1.2, h6, h7, ?_, ?_⟩ <;> omega

theorem Tiled.disj {s : State} {bs : List Blk} (h : Tiled s bs) {b z : Blk} (hb : b ∈ bs)
    (hz : z ∈ bs) : b = z ∨ b.bp + b.sz ≤ z.bp ∨ z.bp + z.sz ≤ b.bp :=
  Chain_disjoint bs _ _ h.chain (fun b hb => by have := (h.tags b hb).2.2.2; omega) b hb z hz

theorem Tiled.bp_inj {s : State} {bs : List Blk} (h : Tiled s bs) {b z : Blk} (hb : b ∈ bs)
    (hz : z ∈ bs) (e : b.bp = z.bp) : b = z := by
  rcases h.disj hb hz with h1 | h1 | h1
  · exact h1
  · have := (h.geo hb).2.2.2.1; omega
  · have := (h.geo hz).2.2.2.1; omega

theorem Tiled.size {s : State} {bs : List Blk} (h : Tiled s bs) {z : Blk} (hz : z ∈ bs) :
    GET_SIZE s.mem (HDRP z.bp) = z.sz := by
  have g := h.geo hz
  exact GET_SIZE_of_tag _ _ z (h.tags z hz).1 g.2.2.1 g.2.2.2.2.1

theorem Tiled.alloc {s : State} {bs : List Blk} (h : Tiled s bs) {z : Blk} (hz : z ∈ bs) :
    GET_ALLOC s.mem (HDRP z.bp) = if z.al then 1 else 0 := by
  have g := h.geo hz
  exact GET_ALLOC_of_tag _ _ z (h.tags z hz).1 g.2.2.1

theorem Tiled.ftrp {s : State} {bs : List Blk} (h : Tiled s bs) {z : Blk} (hz : z ∈ bs) :
    FTRP s.mem z.bp = z.bp + z.sz - 8 := by
  have g := h.geo hz
  unfold FTRP
  rw [h.size hz]
  unfold SIZE_MOD DSIZE
  omega

theorem Tiled.next {s : State} {bs : List Blk} (h : Tiled s bs) {z : Blk} (hz : z ∈ bs) :
    NEXT_BLKP s.mem z.bp = z.bp + z.sz := by
  have g := h.geo hz
  unfold NEXT_BLKP
  rw [h.size hz]
  unfold SIZE_MOD
  omega

/-- A tiling depends on the memory only through the tag words. -/
theorem Tiled.frame {s s' : State} {bs : List Blk} (h : Tiled s bs)
    (e1 : s'.heap_listp = s.heap_listp) (e2 : s'.mem_brk = s.mem_brk)
    (e3 : s'.mem_max_addr = s.mem_max_addr)
    (hm : ∀ z ∈ bs, get4 s'.mem (z.bp - 4) = get4 s.mem (z.bp - 4) ∧
      get4 s'.mem (z.bp + z.sz - 8) = get4 s.mem (z.bp + z.sz - 8))
    (he : get4 s'.mem (s.mem_brk - 4) = get4 s.mem (s.mem_brk - 4)) : Tiled s' bs := by
  refine ⟨by rw [e1]; exact h.base_pos, by rw [e2, e3]; exact h.brk_le,
    by rw [e1, e3]; exact h.max_lt, by rw [e3]; exact h.max_lt64, by rw [e1]; exact h.head,
    by rw [e1, e2]; exact h.chain, ?_, by rw [e2, he]; exact h.epi⟩
  intro z hz
  obtain ⟨t1, t2, t3, t4⟩ := h.tags z hz
  exact ⟨by rw [(hm z hz).1]; exact t1, by rw [(hm z hz).2]; exact t2, t3, t4⟩

/-- A write to a link field of a block of the heap leaves all tag words alone. -/
theorem Tiled.put8_link {s : State} {bs : List Blk} (h : Tiled s bs) {w : Blk} (hw : w ∈ bs)
    (a v : Nat) (ha : a = w.bp ∨ a = w.bp + 8) :
    (∀ z ∈ bs, get4 (put8 s.mem a v) (z.bp - 4) = get4 s.mem (z.bp - 4) ∧
      get4 (put8 s.mem a v) (z.bp + z.sz - 8) = get4 s.mem (z.bp + z.sz - 8)) ∧
    get4 (put8 s.mem a v) (s.mem_brk - 4) = get4 s.mem (s.mem_brk - 4) := by
  have gw := h.geo hw
  refine ⟨fun z hz => ?_, ?_⟩
  · have gz := h.geo hz
    constructor
    · apply get4_put8_ne
      rcases h.disj hw hz with d | d | d
      · subst d; omega
      · omega
      · omega
    · apply get4_put8_ne
      rcases h.disj hw hz with d | d | d
      · subst d; omega
      · omega
      · omega
  · apply get4_put8_ne; omega

/-- A write to a link field of one block leaves the links of every other block alone. -/
theorem Tiled.put8_other {s : State} {bs : List Blk} (h : Tiled s bs) {w z : Blk} (hw : w ∈ bs)
    (hz : z ∈ bs) (hne : z ≠ w) (m : Nat → Nat) (a v : Nat) (ha : a = w.bp ∨ a = w.bp + 8) :
    get8 (put8 m a v) z.bp = get8 m z.bp ∧ get8 (put8 m a v) (z.bp + 8) = get8 m (z.bp + 8) := by
  have gw := h.geo hw
  have gz := h.geo hz
  have d : w.bp + w.sz ≤ z.bp ∨ z.bp + z.sz ≤ w.bp := by
    rcases h.disj hw hz with d | d
    · exact absurd d.symm hne
    · exact d
  constructor
  · apply get8_put8_ne; omega
  · apply get8_put8_ne; omega

/-- A write to a tag word of one block leaves the links of every other block alone. -/
theorem Tiled.put4_other {s : State} {bs : List Blk} (h : Tiled s bs) {w z : Blk} (hw : w ∈ bs)
    (hz : z ∈ bs) (hne : z ≠ w) (m : Nat → Nat) (a v : Nat)
    (ha : w.bp - 4 ≤ a ∧ a + 4 ≤ w.bp + w.sz - 4) :
    get8 (put4 m a v) z.bp = get8 m z.bp ∧ get8 (put4 m a v) (z.bp + 8) = get8 m (z.bp + 8) := by
  have gw := h.geo hw
  have gz := h.geo hz
  have d : w.bp + w.sz ≤ z.bp ∨ z.bp + z.sz ≤ w.bp := by
    rcases h.disj hw hz with d | d
    · exact absurd d.symm hne
    · exact d
  constructor
  · apply get8_put4_ne; omega
  · apply get8_put4_ne; omega

theorem Tiled.put8 {s : State} {bs : List Blk} (h : Tiled s bs) {w : Blk} (hw : w ∈ bs)
    (a v : Nat) (ha : a = w.bp ∨ a = w.bp + 8) :
    Tiled { s with mem := put8 s.mem a v } bs := by
  have := h.put8_link hw a v ha
  exact h.frame rfl rfl rfl this.1 this.2

theorem Tiled.congr {s s' : State} {bs : List Blk} (h : Tiled s bs) (e0 : s'.mem = s.mem)
    (e1 : s'.heap_listp = s.heap_listp) (e2 : s'.mem_brk = s.mem_brk)
    (e3 : s'.mem_max_addr = s.mem_max_addr) : Tiled s' bs :=
  h.frame e1 e2 e3 (fun _ _ => by rw [e0]; exact ⟨rfl, rfl⟩) (by rw [e0])

theorem get_size_class_lt (n : Nat) : get_size_class n < NUM_CLASSES := by
  have key : ∀ f a c, c ≤ NUM_CLASSES - 1 → get_size_class_loop f a c ≤ NUM_CLASSES - 1 := by
    intro f
    induction f with
    | zero => intro a c h; exact h
    | succ f ih =>
      intro a c h
      unfold get_size_class_loop
      split
      · apply ih; unfold NUM_CLASSES at *; omega
      · exact h
  have := key (NUM_CLASSES - 1) (n >>> START_SHIFT) 0 (by unfold NUM_CLASSES; omega)
  unfold get_size_class
  unfold NUM_CLASSES at *
  omega

theorem Buckets.bp_pos {s : State} {bs : List Blk} {L : Nat → List Blk} (hB : Buckets s bs L)
    (hT : Tiled s bs) {k : Nat} (hk : k < NUM_CLASSES) {z : Blk} (hz : z ∈ L k) : 0 < z.bp := by
  have := hT.geo (hB.mem k hk z hz).1
  omega

theorem hd_pos_iff {s : State} {bs : List Blk} (hT : Tiled s bs) (l : List Blk)
    (hl : ∀ z ∈ l, z ∈ bs) : hd l 0 ≠ 0 ↔ l ≠ [] := by
  cases l with
  | nil => simp [hd]
  | cons x xs =>
    have := hT.geo (hl x (List.mem_cons_self _ _))
    simp [hd]; omega

theorem lst_pos_iff {s : State} {bs : List Blk} (hT : Tiled s bs) (l : List Blk)
    (hl : ∀ z ∈ l, z ∈ bs) : lst l 0 ≠ 0 ↔ l ≠ [] := by
  rcases List.eq_nil_or_concat l with rfl | ⟨xs, x, rfl⟩
  · simp [lst]
  · have := hT.geo (hl x (by simp))
    rw [List.concat_eq_append, lst_snoc]
    simp; omega

/-- Assembling the invariant after a removal from bucket `k`. -/
theorem delete_core {s s' : State} {bs : List Blk} {L : Nat → List Blk} {pend : List Blk}
    (h : Inv s bs L pend) {b : Blk} {k : Nat} (hk : k < NUM_CLASSES)
    {pre post : List Blk} (hL : L k = pre ++ b :: post)
    (hT : Tiled s' bs)
    (hfl : s'.free_list = Function.update s.free_list k (hd (pre ++ post) 0))
    (hseg : Seg s'.mem 0 (pre ++ post) 0)
    (hfr : ∀ z ∈ bs, z ≠ b → z ∉ pre → z ∉ post →
      get8 s'.mem z.bp = get8 s.mem z.bp ∧ get8 s'.mem (z.bp + 8) = get8 s.mem (z.bp + 8)) :
    Inv s' bs (Function.update L k ((L k).erase b)) (b :: pend) := by
  have hB := h.buckets
  have hnd := hB.nodup k hk
  have hbk : b ∈ L k := by rw [hL]; simp
  have herase : (L k).erase b = pre ++ post := by
    rw [hL] at hnd ⊢
    have : b ∉ pre := fun hc => by
      have := List.nodup_append.1 hnd
      exact this.2.2 hc (List.mem_cons_self _ _) 
    rw [List.erase_append_right _ this, List.erase_cons_head]
  refine ⟨hT, ⟨?_, ?_, ?_, ?_, ?_⟩, ?_⟩
  · intro k' hk'
    rw [hfl]
    by_cases e : k' = k
    · subst e; simp [herase]
    · simp [Function.update_noteq e]; exact hB.head k' hk'
  · intro k' hk'
    by_cases e : k' = k
    · subst e; simp [herase]; exact hseg
    · rw [Function.update_noteq e]
      apply Seg_frame s.mem s'.mem _ _ _ _ (hB.seg k' hk')
      intro z hz
      have hzm := hB.mem k' hk' z hz
      have hbm := hB.mem k hk b hbk
      apply hfr z hzm.1
      · intro e1; subst e1; exact e (hzm.2.2.symm.trans hbm.2.2)
      · intro hc
        have := hB.mem k hk z (by rw [hL]; simp [hc])
        exact e (hzm.2.2.symm.trans this.2.2)
      · intro hc
        have := hB.mem k hk z (by rw [hL]; simp [hc])
        exact e (hzm.2.2.symm.trans this.2.2)
  · intro k' hk' z hz
    by_cases e : k' = k
    · subst e; simp at hz
      exact hB.mem k' hk' z (List.mem_of_mem_erase hz)
    · rw [Function.update_noteq e] at hz; exact hB.mem k' hk' z hz
  · intro k' hk'
    by_cases e : k' = k
    · subst e; simp
      exact (hB.sorted k' hk').sublist (List.erase_sublist _ _)
    · rw [Function.update_noteq e]; exact hB.sorted k' hk'
  · intro k' hk'
    by_cases e : k' = k
    · subst e; simp
      exact (hB.nodup k' hk').erase _
    · rw [Function.update_noteq e]; exact hB.nodup k' hk'
  · intro z hz hfree
    have hc := h.cover z hz hfree
    by_cases e : get_size_class z.sz = k
    · rw [e] at hc ⊢
      simp only [Function.update_same, List.mem_cons, not_or]
      rw [hnd.mem_erase_iff, hc]
    · rw [Function.update_noteq e, hc]
      simp only [List.mem_cons, not_or, iff_and_self]
      intro _ e1; subst e1
      exact e (hB.mem k hk z hbk).2.2

theorem delete_block_eq (s : State) (bp P N k : Nat)
    (hk : get_size_class (GET_SIZE s.mem (HDRP bp)) = k)
    (hP : get8 s.mem bp = P) (hN : get8 s.mem (bp + 8) = N)
    (hfr : P ≠ 0 → get8 (put8 s.mem (P + 8) N) bp = P ∧ get8 (put8 s.mem (P + 8) N) (bp + 8) = N) :
    delete_block s bp =
      { s with
        mem := put8 (put8 (if N ≠ 0 then put8 (if P ≠ 0 then put8 s.mem (P + 8) N else s.mem) N P
                            else (if P ≠ 0 then put8 s.mem (P + 8) N else s.mem)) (bp + 8) 0) bp 0,
        free_list := if P ≠ 0 then s.free_list else Function.update s.free_list k N } := by
  unfold delete_block
  simp only [hk, PREV_FREEP, NEXT_FREEP, SET_NEXT_FREEP, SET_PREV_FREEP, DSIZE, hP, hN]
  by_cases p0 : P = 0
  · by_cases n0 : N = 0
    · simp [p0, n0, hN]
    · simp [p0, n0, hN, hP]
  · have := hfr p0
    by_cases n0 : N = 0
    · simp [p0, n0, this.1, this.2]
      simp [n0] at this
      simp [this]
    · simp [p0, n0, this.1, this.2]

theorem nodup_app_disj {l1 l2 : List Blk} (h : (l1 ++ l2).Nodup) (z : Blk) (h1 : z ∈ l1)
    (h2 : z ∈ l2) : False :=
  (List.nodup_append.1 h).2.2 h1 h2

theorem delete_block_inv {s : State} {bs : List Blk} {L : Nat → List Blk} {pend : List Blk}
    (h : Inv s bs L pend) {b : Blk} {k : Nat} (hk : k < NUM_CLASSES) (hb : b ∈ L k) :
    Inv (delete_block s b.bp) bs (Function.update L k ((L k).erase b)) (b :: pend) ∧
      (delete_block s b.bp).heap_listp = s.heap_listp ∧
      (delete_block s b.bp).mem_brk = s.mem_brk ∧
      (delete_block s b.bp).mem_max_addr = s.mem_max_addr := by
  have hT := h.tiled
  have hB := h.buckets
  obtain ⟨pre, post, hL⟩ := List.append_of_mem hb
  have hbm := hB.mem k hk b hb
  have hcls : get_size_class (GET_SIZE s.mem (HDRP b.bp)) = k := by
    rw [hT.size hbm.1]; exact hbm.2.2
  have hseg := hB.seg k hk
  rw [hL, Seg_append] at hseg
  obtain ⟨hs1, hP, hN, hs2⟩ := hseg
  have hnd := hB.nodup k hk
  rw [hL] at hnd
  have hmem : ∀ z, z ∈ pre ∨ z ∈ post → z ∈ bs ∧ z ≠ b := by
    intro z hz
    have hzL : z ∈ L k := by rw [hL]; rcases hz with hz | hz <;> simp [hz]
    refine ⟨(hB.mem k hk z hzL).1, ?_⟩
    intro e; subst e
    have hnd' := List.nodup_append.1 hnd
    rcases hz with hz | hz
    · exact hnd'.2.2 hz (List.mem_cons_self _ _)
    · exact (List.nodup_cons.1 hnd'.2.1).1 hz
  have gb := hT.geo hbm.1
  have fr : ∀ z ∈ bs, z ≠ b → ∀ m : Nat → Nat,
      get8 (put8 (put8 m (b.bp + 8) 0) b.bp 0) z.bp = get8 m z.bp ∧
      get8 (put8 (put8 m (b.bp + 8) 0) b.bp 0) (z.bp + 8) = get8 m (z.bp + 8) := by
    intro z hz hne m
    rw [(hT.put8_other hbm.1 hz hne _ _ 0 (Or.inl rfl)).1,
      (hT.put8_other hbm.1 hz hne _ _ 0 (Or.inl rfl)).2,
      (hT.put8_other hbm.1 hz hne _ _ 0 (Or.inr rfl)).1,
      (hT.put8_other hbm.1 hz hne _ _ 0 (Or.inr rfl)).2]
    exact ⟨rfl, rfl⟩
  have e := delete_block_eq s b.bp (lst pre 0) (hd post 0) k hcls hP hN (by
    intro hne
    rcases List.eq_nil_or_concat pre with hpre | ⟨pre', x, hpre⟩
    · subst hpre; simp [lst] at hne
    · subst hpre
      rw [List.concat_eq_append, lst_snoc]
      rw [List.concat_eq_append, lst_snoc] at hP
      have hx := hmem x (Or.inl (by simp))
      have r1 := hT.put8_other hx.1 hbm.1 (fun e1 => hx.2 e1.symm) s.mem (x.bp + 8) (hd post 0)
        (Or.inr rfl)
      rw [r1.1, r1.2]
      exact ⟨hP, hN⟩)
  rw [e]
  refine ⟨?_, rfl, rfl, rfl⟩
  rcases List.eq_nil_or_concat pre with hpre | ⟨pre', x, hpre⟩ <;>
    rcases post with _ | ⟨y, post'⟩
  · -- only element
    subst hpre
    simp only [lst, hd, ne_eq, not_true_eq_false, if_false]
    refine delete_core h hk hL ?_ ?_ ?_ ?_
    · exact ((hT.put8 hbm.1 _ 0 (Or.inr rfl)).put8 hbm.1 _ 0 (Or.inl rfl)).congr rfl rfl rfl rfl
    · simp [hd]
    · trivial
    · intro z hz hne _ _
      exact fr z hz hne _
  · -- first element, with a successor
    subst hpre
    have hy := hmem y (Or.inr (List.mem_cons_self _ _))
    have gy := hT.geo hy.1
    have hy0 : y.bp ≠ 0 := by omega
    simp only [lst, hd, ne_eq, not_true_eq_false, if_false, hy0, not_false_eq_true, if_true]
    refine delete_core h hk hL ?_ ?_ ?_ ?_
    · exact (((hT.put8 hy.1 _ 0 (Or.inl rfl)).put8 hbm.1 _ 0 (Or.inr rfl)).put8 hbm.1 _ 0
        (Or.inl rfl)).congr rfl rfl rfl rfl
    · simp [hd]
    · apply Seg_set_prev s.mem _ post' y b.bp 0 0 _ _ _ hs2
      · intro z hz
        have hz' := hmem z (Or.inr (List.mem_cons_of_mem _ hz))
        have hzy : z ≠ y := by
          intro e1; subst e1
          simp at hnd
          exact hnd.2.1 hz
        show get8 (put8 (put8 (put8 s.mem y.bp 0) (b.bp + 8) 0) b.bp 0) z.bp = _ ∧
          get8 (put8 (put8 (put8 s.mem y.bp 0) (b.bp + 8) 0) b.bp 0) (z.bp + 8) = _
        rw [(fr z hz'.1 hz'.2 _).1, (fr z hz'.1 hz'.2 _).2]
        exact hT.put8_other hy.1 hz'.1 hzy _ _ 0 (Or.inl rfl)
      · show get8 (put8 (put8 (put8 s.mem y.bp 0) (b.bp + 8) 0) b.bp 0) y.bp = 0
        rw [(fr y hy.1 hy.2 _).1, get8_put8_same]; rfl
      · show get8 (put8 (put8 (put8 s.mem y.bp 0) (b.bp + 8) 0) b.bp 0) (y.bp + 8) = _
        rw [(fr y hy.1 hy.2 _).2]
        apply get8_put8_ne; omega
    · intro z hz hne _ hzp
      have hzy : z ≠ y := fun e1 => hzp (by rw [e1]; exact List.mem_cons_self _ _)
      show get8 (put8 (put8 (put8 s.mem y.bp 0) (b.bp + 8) 0) b.bp 0) z.bp = _ ∧
        get8 (put8 (put8 (put8 s.mem y.bp 0) (b.bp + 8) 0) b.bp 0) (z.bp + 8) = _
      rw [(fr z hz hne _).1, (fr z hz hne _).2]
      exact hT.put8_other hy.1 hz hzy _ _ 0 (Or.inl rfl)
  · -- last element, with a predecessor
    subst hpre
    rw [List.concat_eq_append] at hL hs1 hP hmem hnd ⊢
    rw [lst_snoc] at hP ⊢
    have hx := hmem x (Or.inl (by simp))
    have gx := hT.geo hx.1
    have hx0 : x.bp ≠ 0 := by omega
    simp only [hd, ne_eq, not_true_eq_false, if_false, hx0, not_false_eq_true, if_true]
    refine delete_core h hk hL ?_ ?_ ?_ ?_
    · exact (((hT.put8 hx.1 _ 0 (Or.inr rfl)).put8 hbm.1 _ 0 (Or.inr rfl)).put8 hbm.1 _ 0
        (Or.inl rfl)).congr rfl rfl rfl rfl
    · have := hB.head k hk
      rw [hL] at this
      show s.free_list = _
      rw [List.append_nil, ← Function.update_eq_self k s.free_list, this]
      simp [hd_append]
      cases pre' <;> simp [hd]
    · rw [List.append_nil]
      apply Seg_set_next s.mem _ pre' x 0 b.bp 0 _ _ _ hs1
      · intro z hz
        have hz' := hmem z (Or.inl (by simp [hz]))
        have hzx : z ≠ x := by
          intro e1; subst e1
          exact nodup_app_disj (List.nodup_append.1 hnd).1 z hz (by simp)
        show get8 (put8 (put8 (put8 s.mem (x.bp + 8) 0) (b.bp + 8) 0) b.bp 0) z.bp = _ ∧
          get8 (put8 (put8 (put8 s.mem (x.bp + 8) 0) (b.bp + 8) 0) b.bp 0) (z.bp + 8) = _
        rw [(fr z hz'.1 hz'.2 _).1, (fr z hz'.1 hz'.2 _).2]
        exact hT.put8_other hx.1 hz'.1 hzx _ _ 0 (Or.inr rfl)
      · show get8 (put8 (put8 (put8 s.mem (x.bp + 8) 0) (b.bp + 8) 0) b.bp 0) x.bp = _
        rw [(fr x hx.1 hx.2 _).1]
        apply get8_put8_ne; omega
      · show get8 (put8 (put8 (put8 s.mem (x.bp + 8) 0) (b.bp + 8) 0) b.bp 0) (x.bp + 8) = 0
        rw [(fr x hx.1 hx.2 _).2, get8_put8_same]; rfl
    · intro z hz hne hzp _
      have hzx : z ≠ x := fun e1 => hzp (by rw [e1]; simp)
      show get8 (put8 (put8 (put8 s.mem (x.bp + 8) 0) (b.bp + 8) 0) b.bp 0) z.bp = _ ∧
        get8 (put8 (put8 (put8 s.mem (x.bp + 8) 0) (b.bp + 8) 0) b.bp 0) (z.bp + 8) = _
      rw [(fr z hz hne _).1, (fr z hz hne _).2]
      exact hT.put8_other hx.1 hz hzx _ _ 0 (Or.inr rfl)
  · -- in the middle
    subst hpre
    rw [List.concat_eq_append] at hL hs1 hP hmem hnd ⊢
    rw [lst_snoc] at hP ⊢
    have hx := hmem x (Or.inl (by simp))
    have gx := hT.geo hx.1
    have hx0 : x.bp ≠ 0 := by omega
    have hy := hmem y (Or.inr (List.mem_cons_self _ _))
    have gy := hT.geo hy.1
    have hy0 : y.bp ≠ 0 := by omega
    have hxy : x ≠ y := by
      intro e1
      exact nodup_app_disj hnd x (by simp) (by simp [e1])
    simp only [hd, ne_eq, hx0, hy0, not_false_eq_true, if_true]
    simp only [hd] at hN hs1
    refine delete_core h hk hL ?_ ?_ ?_ ?_
    · exact ((((hT.put8 hx.1 _ _ (Or.inr rfl)).put8 hy.1 _ _ (Or.inl rfl)).put8 hbm.1 _ 0
        (Or.inr rfl)).put8 hbm.1 _ 0 (Or.inl rfl)).congr rfl rfl rfl rfl
    · have := hB.head k hk
      rw [hL] at this
      show s.free_list = _
      rw [← Function.update_eq_self k s.free_list, this]
      simp [hd_append]
      cases pre' <;> simp [hd]
    · rw [Seg_append]
      constructor
      · apply Seg_set_next s.mem _ pre' x 0 b.bp _ _ _ _ hs1
        · intro z hz
          have hz' := hmem z (Or.inl (by simp [hz]))
          have hzx : z ≠ x := by
            intro e1; subst e1
            exact nodup_app_disj (List.nodup_append.1 hnd).1 z hz (by simp)
          have hzy : z ≠ y := by
            intro e1
            exact nodup_app_disj hnd z (by simp [hz]) (by simp [e1])
          show get8 (put8 (put8 (put8 (put8 s.mem (x.bp + 8) y.bp) y.bp x.bp) (b.bp + 8) 0) b.bp 0)
            z.bp = _ ∧
            get8 (put8 (put8 (put8 (put8 s.mem (x.bp + 8) y.bp) y.bp x.bp) (b.bp + 8) 0) b.bp 0)
              (z.bp + 8) = _
          rw [(fr z hz'.1 hz'.2 _).1, (fr z hz'.1 hz'.2 _).2,
            (hT.put8_other hy.1 hz'.1 hzy _ _ _ (Or.inl rfl)).1,
            (hT.put8_other hy.1 hz'.1 hzy _ _ _ (Or.inl rfl)).2]
          exact hT.put8_other hx.1 hz'.1 hzx _ _ _ (Or.inr rfl)
        · show get8 (put8 (put8 (put8 (put8 s.mem (x.bp + 8) y.bp) y.bp x.bp) (b.bp + 8) 0) b.bp 0)
            x.bp = _
          rw [(fr x hx.1 hx.2 _).1, (hT.put8_other hy.1 hx.1 hxy _ _ _ (Or.inl rfl)).1]
          apply get8_put8_ne; omega
        · show get8 (put8 (put8 (put8 (put8 s.mem (x.bp + 8) y.bp) y.bp x.bp) (b.bp + 8) 0) b.bp 0)
            (x.bp + 8) = _
          rw [(fr x hx.1 hx.2 _).2, (hT.put8_other hy.1 hx.1 hxy _ _ _ (Or.inl rfl)).2,
            get8_put8_same]
          simp only [hd]
          apply Nat.mod_eq_of_lt; omega
      · rw [lst_snoc]
        apply Seg_set_prev s.mem _ post' y b.bp x.bp 0 _ _ _ hs2
        · intro z hz
          have hz' := hmem z (Or.inr (List.mem_cons_of_mem _ hz))
          have hzy : z ≠ y := by
            intro e1; subst e1
            have := (List.nodup_append.1 hnd).2.1
            simp at this
            exact this.2.1 hz
          have hzx : z ≠ x := by
            intro e1
            exact nodup_app_disj hnd z (by simp [e1]) (by simp [hz])
          show get8 (put8 (put8 (put8 (put8 s.mem (x.bp + 8) y.bp) y.bp x.bp) (b.bp + 8) 0) b.bp 0)
            z.bp = _ ∧
            get8 (put8 (put8 (put8 (put8 s.mem (x.bp + 8) y.bp) y.bp x.bp) (b.bp + 8) 0) b.bp 0)
              (z.bp + 8) = _
          rw [(fr z hz'.1 hz'.2 _).1, (fr z hz'.1 hz'.2 _).2,
            (hT.put8_other hy.1 hz'.1 hzy _ _ _ (Or.inl rfl)).1,
            (hT.put8_other hy.1 hz'.1 hzy _ _ _ (Or.inl rfl)).2]
          exact hT.put8_other hx.1 hz'.1 hzx _ _ _ (Or.inr rfl)
        · show get8 (put8 (put8 (put8 (put8 s.mem (x.bp + 8) y.bp) y.bp x.bp) (b.bp + 8) 0) b.bp 0)
            y.bp = _
          rw [(fr y hy.1 hy.2 _).1, get8_put8_same]
          apply Nat.mod_eq_of_lt; omega
        · show get8 (put8 (put8 (put8 (put8 s.mem (x.bp + 8) y.bp) y.bp x.bp) (b.bp + 8) 0) b.bp 0)
            (y.bp + 8) = _
          rw [(fr y hy.1 hy.2 _).2, get8_put8_ne _ _ _ _ (by omega)]
          exact (hT.put8_other hx.1 hy.1 (fun e1 => hxy e1.symm) _ _ _ (Or.inr rfl)).2
    · intro z hz hne hzp hzq
      have hzx : z ≠ x := fun e1 => hzp (by rw [e1]; simp)
      have hzy : z ≠ y := fun e1 => hzq (by rw [e1]; simp)
      show get8 (put8 (put8 (put8 (put8 s.mem (x.bp + 8) y.bp) y.bp x.bp) (b.bp + 8) 0) b.bp 0)
        z.bp = _ ∧
        get8 (put8 (put8 (put8 (put8 s.mem (x.bp + 8) y.bp) y.bp x.bp) (b.bp + 8) 0) b.bp 0)
          (z.bp + 8) = _
      rw [(fr z hz hne _).1, (fr z hz hne _).2,
        (hT.put8_other hy.1 hz hzy _ _ _ (Or.inl rfl)).1,
        (hT.put8_other hy.1 hz hzy _ _ _ (Or.inl rfl)).2]
      exact hT.put8_other hx.1 hz hzx _ _ _ (Or.inr rfl)

theorem Inv.pend_congr {s : State} {bs : List Blk} {L : Nat → List Blk} {p p' : List Blk}
    (h : Inv s bs L p) (e : ∀ z ∈ bs, z.al = false → (z ∈ p ↔ z ∈ p')) : Inv s bs L p' :=
  ⟨h.tiled, h.buckets, fun z hz hf => by rw [h.cover z hz hf, e z hz hf]⟩

/-- The scan of `insert_block` stops at the first entry that is not smaller. -/
theorem insert_scan_eq (m : Nat → Nat) (size : Nat) (l : List Blk) (p0 ins0 fuel : Nat)
    (hseg : Seg m p0 l 0) (hsz : ∀ z ∈ l, GET_SIZE m (HDRP z.bp) = z.sz)
    (hpos : ∀ z ∈ l, z.bp ≠ 0) (hfuel : l.length < fuel) :
    insert_scan fuel m size (hd l 0) ins0 =
      some (hd (l.dropWhile (fun z => decide (z.sz < size))) 0,
        lst (l.takeWhile (fun z => decide (z.sz < size))) ins0) := by
  induction l generalizing p0 ins0 fuel with
  | nil =>
    cases fuel with
    | zero => simp at hfuel
    | succ f => simp [insert_scan, hd, lst]
  | cons z rest ih =>
    cases fuel with
    | zero => simp at hfuel
    | succ f =>
      obtain ⟨-, h2, h3⟩ := hseg
      have hz := hsz z (List.mem_cons_self _ _)
      have hz0 := hpos z (List.mem_cons_self _ _)
      unfold insert_scan
      rw [show hd (z :: rest) 0 = z.bp from rfl]
      simp only [hz, hz0, ne_eq, not_false_eq_true, true_and]
      by_cases c : z.sz < size
      · simp only [c, if_true, h2]
        rw [ih z.bp z.bp f h3 (fun w hw => hsz w (List.mem_cons_of_mem _ hw))
          (fun w hw => hpos w (List.mem_cons_of_mem _ hw)) (by simp at hfuel; omega)]
        simp [List.takeWhile, List.dropWhile, c, lst]
      · simp [List.takeWhile, List.dropWhile, c, lst, hd]

theorem sortedInsert_sorted (b : Blk) (l : List Blk) (h : l.Pairwise (fun a c => a.sz ≤ c.sz)) :
    (sortedInsert b l).Pairwise (fun a c => a.sz ≤ c.sz) := by
  unfold sortedInsert
  induction l with
  | nil => simp
  | cons z rest ih =>
    have hr := (List.pairwise_cons.1 h)
    by_cases c : z.sz < b.sz
    · simp only [List.takeWhile, List.dropWhile, c, decide_True, List.cons_append]
      refine List.pairwise_cons.2 ⟨?_, ih hr.2⟩
      intro w hw
      rcases List.mem_append.1 hw with hw | hw
      · exact hr.1 w ((List.takeWhile_sublist _).subset hw)
      · rcases List.mem_cons.1 hw with hw | hw
        · rw [hw]; omega
        · exact hr.1 w ((List.dropWhile_sublist _).subset hw)
    · simp only [List.takeWhile, List.dropWhile, c, decide_False, List.nil_append]
      refine List.pairwise_cons.2 ⟨?_, h⟩
      intro w hw
      rcases List.mem_cons.1 hw with hw | hw
      · rw [hw]; omega
      · have := hr.1 w hw; omega

theorem mem_sortedInsert (b z : Blk) (l : List Blk) : z ∈ sortedInsert b l ↔ z = b ∨ z ∈ l := by
  unfold sortedInsert
  conv_rhs => rw [← List.takeWhile_append_dropWhile (fun z => decide (z.sz < b.sz)) l]
  simp only [List.mem_append, List.mem_cons]
  tauto

theorem sortedInsert_nodup (b : Blk) (l : List Blk) (h : l.Nodup) (hb : b ∉ l) :
    (sortedInsert b l).Nodup := by
  unfold sortedInsert
  rw [← List.takeWhile_append_dropWhile (fun z => decide (z.sz < b.sz)) l] at h hb
  have h1 := List.nodup_append.1 h
  simp only [List.mem_append, not_or] at hb
  refine List.nodup_append.2 ⟨h1.1, List.nodup_cons.2 ⟨hb.2, h1.2.1⟩, ?_⟩
  intro w hw1 hw2
  rcases List.mem_cons.1 hw2 with hw2 | hw2
  · rw [hw2] at hw1; exact hb.1 hw1
  · exact h1.2.2 hw1 hw2

theorem Tiled.sep {s : State} {bs : List Blk} (h : Tiled s bs) {b z : Blk} (hb : b ∈ bs)
    (hz : z ∈ bs) (hne : b ≠ z) :
    (b.bp + b.sz ≤ z.bp ∨ z.bp + z.sz ≤ b.bp) ∧ 24 ≤ b.sz ∧ 24 ≤ z.sz ∧ 8 ≤ b.bp ∧ 8 ≤ z.bp := by
  have g1 := h.geo hb
  have g2 := h.geo hz
  refine ⟨?_, g1.2.2.2.1, g2.2.2.2.1, by omega, by omega⟩
  rcases h.disj hb hz with d | d
  · exact absurd d hne
  · exact d

/-- Assembling the invariant after an insertion into bucket `k`. -/
theorem insert_core {s s' : State} {bs : List Blk} {L : Nat → List Blk} {pend : List Blk}
    (h : Inv s bs L pend) {b : Blk} (hb : b ∈ bs) (hf : b.al = false) (hp : b ∈ pend)
    {k : Nat} (hk : get_size_class b.sz = k)
    {pre post : List Blk} (hL : L k = pre ++ post)
    (hsort : sortedInsert b (L k) = pre ++ b :: post)
    (hT : Tiled s' bs)
    (hfl : s'.free_list = Function.update s.free_list k (hd (pre ++ b :: post) 0))
    (hseg : Seg s'.mem 0 (pre ++ b :: post) 0)
    (hfr : ∀ z ∈ bs, z ≠ b → z ∉ pre → z ∉ post →
      get8 s'.mem z.bp = get8 s.mem z.bp ∧ get8 s'.mem (z.bp + 8) = get8 s.mem (z.bp + 8)) :
    Inv s' bs (Function.update L k (sortedInsert b (L k)))
      (pend.filter (fun z => decide (z ≠ b))) := by
  have hB := h.buckets
  have hklt : k < NUM_CLASSES := by rw [← hk]; exact get_size_class_lt _
  have hbL : b ∉ L k := by
    have := h.cover b hb hf
    rw [hk] at this
    exact fun hc => (this.1 hc) hp
  refine ⟨hT, ⟨?_, ?_, ?_, ?_, ?_⟩, ?_⟩
  · intro k' hk'
    rw [hfl]
    by_cases e : k' = k
    · subst e; simp [hsort]
    · simp [Function.update_noteq e]; exact hB.head k' hk'
  · intro k' hk'
    by_cases e : k' = k
    · subst e; simp [hsort]; exact hseg
    · rw [Function.update_noteq e]
      apply Seg_frame s.mem s'.mem _ _ _ _ (hB.seg k' hk')
      intro z hz
      have hzm := hB.mem k' hk' z hz
      apply hfr z hzm.1
      · intro e1; subst e1; exact e (hzm.2.2.symm.trans hk)
      · intro hc
        have := hB.mem k hklt z (by rw [hL]; simp [hc])
        exact e (hzm.2.2.symm.trans this.2.2)
      · intro hc
        have := hB.mem k hklt z (by rw [hL]; simp [hc])
        exact e (hzm.2.2.symm.trans this.2.2)
  · intro k' hk' z hz
    by_cases e : k' = k
    · subst e; simp only [Function.update_same, mem_sortedInsert] at hz
      rcases hz with hz | hz
      · rw [hz]; exact ⟨hb, hf, hk⟩
      · exact hB.mem k' hk' z hz
    · rw [Function.update_noteq e] at hz; exact hB.mem k' hk' z hz
  · intro k' hk'
    by_cases e : k' = k
    · subst e; simp only [Function.update_same]
      exact sortedInsert_sorted b _ (hB.sorted k' hk')
    · rw [Function.update_noteq e]; exact hB.sorted k' hk'
  · intro k' hk'
    by_cases e : k' = k
    · subst e; simp only [Function.update_same]
      exact sortedInsert_nodup b _ (hB.nodup k' hk') hbL
    · rw [Function.update_noteq e]; exact hB.nodup k' hk'
  · intro z hz hfree
    have hc := h.cover z hz hfree
    simp only [List.mem_filter, decide_eq_true_eq, not_and, not_not]
    by_cases e : get_size_class z.sz = k
    · rw [e] at hc ⊢
      simp only [Function.update_same, mem_sortedInsert]
      constructor
      · rintro (h1 | h1)
        · intro _; exact h1
        · intro h2; exact absurd h2 (hc.1 h1)
      · intro h1
        by_cases h2 : z = b
        · exact Or.inl h2
        · right; exact hc.2 (fun h3 => h2 (h1 h3))
    · rw [Function.update_noteq e, hc]
      constructor
      · intro h1 h2; exact absurd h2 h1
      · intro h1 h2
        have := h1 h2
        subst this
        exact e hk

theorem insert_block_inv {s : State} {bs : List Blk} {L : Nat → List Blk} {pend : List Blk}
    (h : Inv s bs L pend) {b : Blk} (hb : b ∈ bs) (hf : b.al = false) (hp : b ∈ pend)
    (fuel : Nat) (hfuel : (L (get_size_class b.sz)).length < fuel) :
    ∃ s', insert_block fuel s b.bp = some s' ∧
      Inv s' bs (Function.update L (get_size_class b.sz) (sortedInsert b (L (get_size_class b.sz))))
        (pend.filter (fun z => decide (z ≠ b))) ∧
      s'.heap_listp = s.heap_listp ∧ s'.mem_brk = s.mem_brk ∧
      s'.mem_max_addr = s.mem_max_addr := by
  have hT := h.tiled
  have hB := h.buckets
  generalize hk : get_size_class b.sz = k at hfuel ⊢
  have hklt : k < NUM_CLASSES := by rw [← hk]; exact get_size_class_lt _
  have hbL : b ∉ L k := by
    have := h.cover b hb hf
    rw [hk] at this
    exact fun hc => (this.1 hc) hp
  have hmemL : ∀ z ∈ L k, z ∈ bs ∧ b ≠ z := fun z hz =>
    ⟨(hB.mem k hklt z hz).1, fun e => hbL (e ▸ hz)⟩
  have hscan := insert_scan_eq s.mem b.sz (L k) 0 0 fuel (hB.seg k hklt)
    (fun z hz => hT.size (hmemL z hz).1)
    (fun z hz => by have := hT.geo (hmemL z hz).1; omega) hfuel
  have hsplit := List.takeWhile_append_dropWhile (fun z => decide (z.sz < b.sz)) (L k)
  have hsort : sortedInsert b (L k) = (L k).takeWhile (fun z => decide (z.sz < b.sz)) ++
      b :: (L k).dropWhile (fun z => decide (z.sz < b.sz)) := rfl
  generalize (L k).takeWhile (fun z => decide (z.sz < b.sz)) = pre at hscan hsplit hsort
  generalize (L k).dropWhile (fun z => decide (z.sz < b.sz)) = post at hscan hsplit hsort
  have hL := hsplit.symm
  have hseg := hB.seg k hklt
  rw [hL, Seg_append] at hseg
  obtain ⟨hs1, hs2⟩ := hseg
  have hnd := hB.nodup k hklt
  rw [hL] at hnd
  have hmem : ∀ z, z ∈ pre ∨ z ∈ post → z ∈ bs ∧ b ≠ z := by
    intro z hz
    apply hmemL
    rw [hL]; rcases hz with hz | hz <;> simp [hz]
  have gb := hT.geo hb
  have hhead := hB.head k hklt
  rw [hL] at hhead hscan
  have ndz : ∀ z, z ∈ pre → z ∈ post → False := fun z h1 h2 => nodup_app_disj hnd z h1 h2
  unfold insert_block
  simp only [hT.size hb, hk, hhead, hscan]
  rcases List.eq_nil_or_concat pre with hpre | ⟨pre', x, hpre⟩ <;>
    rcases post with _ | ⟨y, post'⟩
  · -- empty bucket
    subst hpre
    simp only [lst, hd, and_self, if_true]
    refine ⟨_, rfl, insert_core h hb hf hp hk hL hsort ?_ ?_ ?_ ?_, rfl, rfl, rfl⟩
    · exact ((hT.put8 hb _ 0 (Or.inl rfl)).put8 hb _ 0 (Or.inr rfl)).congr rfl rfl rfl rfl
    · simp [hd]
    · refine ⟨?_, ?_, trivial⟩
      · show get8 (put8 (put8 s.mem b.bp 0) (b.bp + 8) 0) b.bp = 0
        rw [get8_put8_ne _ _ _ _ (by omega), get8_put8_same]; rfl
      · show get8 (put8 (put8 s.mem b.bp 0) (b.bp + 8) 0) (b.bp + 8) = 0
        rw [get8_put8_same]; rfl
    · intro z hz hne _ _
      have := hT.sep hb hz (fun e => hne e.symm)
      show get8 (put8 (put8 s.mem b.bp 0) (b.bp + 8) 0) z.bp = _ ∧
        get8 (put8 (put8 s.mem b.bp 0) (b.bp + 8) 0) (z.bp + 8) = _
      constructor <;>
        rw [get8_put8_ne _ _ _ _ (by omega), get8_put8_ne _ _ _ _ (by omega)]
  · -- new head
    subst hpre
    have hy := hmem y (Or.inr (List.mem_cons_self _ _))
    have gy := hT.geo hy.1
    have sy := hT.sep hb hy.1 hy.2
    have hy0 : y.bp ≠ 0 := by omega
    simp only [lst, hd, List.nil_append, hy0, false_and, if_false, ne_eq, not_false_eq_true,
      and_self, if_true]
    refine ⟨_, rfl, insert_core h hb hf hp hk hL hsort ?_ ?_ ?_ ?_, rfl, rfl, rfl⟩
    · exact (((hT.put8 hb _ _ (Or.inr rfl)).put8 hb _ 0 (Or.inl rfl)).put8 hy.1 _ _
        (Or.inl rfl)).congr rfl rfl rfl rfl
    · simp [hd]
    · refine ⟨?_, ?_, ?_⟩
      · show get8 (put8 (put8 (put8 s.mem (b.bp + 8) y.bp) b.bp 0) y.bp b.bp) b.bp = 0
        rw [get8_put8_ne _ _ _ _ (by omega), get8_put8_same]; rfl
      · show get8 (put8 (put8 (put8 s.mem (b.bp + 8) y.bp) b.bp 0) y.bp b.bp) (b.bp + 8) = y.bp
        rw [get8_put8_ne _ _ _ _ (by omega), get8_put8_ne _ _ _ _ (by omega), get8_put8_same]
        apply Nat.mod_eq_of_lt; omega
      · apply Seg_set_prev s.mem _ post' y 0 b.bp 0 _ _ _ hs2
        · intro z hz
          have hz' := hmem z (Or.inr (List.mem_cons_of_mem _ hz))
          have hzy : y ≠ z := by
            intro e1; subst e1
            simp at hnd
            exact hnd.1 hz
          have := hT.sep hb hz'.1 hz'.2
          have := hT.sep hy.1 hz'.1 hzy
          show get8 (put8 (put8 (put8 s.mem (b.bp + 8) y.bp) b.bp 0) y.bp b.bp) z.bp = _ ∧
            get8 (put8 (put8 (put8 s.mem (b.bp + 8) y.bp) b.bp 0) y.bp b.bp) (z.bp + 8) = _
          constructor <;>
            rw [get8_put8_ne _ _ _ _ (by omega), get8_put8_ne _ _ _ _ (by omega),
              get8_put8_ne _ _ _ _ (by omega)]
        · show get8 (put8 (put8 (put8 s.mem (b.bp + 8) y.bp) b.bp 0) y.bp b.bp) y.bp = b.bp
          rw [get8_put8_same]
          apply Nat.mod_eq_of_lt; omega
        · show get8 (put8 (put8 (put8 s.mem (b.bp + 8) y.bp) b.bp 0) y.bp b.bp) (y.bp + 8) = _
          rw [get8_put8_ne _ _ _ _ (by omega), get8_put8_ne _ _ _ _ (by omega),
            get8_put8_ne _ _ _ _ (by omega)]
    · intro z hz hne _ hzp
      have hzy : y ≠ z := fun e1 => hzp (by rw [e1]; exact List.mem_cons_self _ _)
      have := hT.sep hb hz (fun e => hne e.symm)
      have := hT.sep hy.1 hz hzy
      show get8 (put8 (put8 (put8 s.mem (b.bp + 8) y.bp) b.bp 0) y.bp b.bp) z.bp = _ ∧
        get8 (put8 (put8 (put8 s.mem (b.bp + 8) y.bp) b.bp 0) y.bp b.bp) (z.bp + 8) = _
      constructor <;>
        rw [get8_put8_ne _ _ _ _ (by omega), get8_put8_ne _ _ _ _ (by omega),
          get8_put8_ne _ _ _ _ (by omega)]
  · -- new tail
    subst hpre
    rw [List.concat_eq_append] at hL hs1 hs2 hmem hnd hsort hhead ndz ⊢
    rw [lst_snoc] at hs2 ⊢
    have hx := hmem x (Or.inl (by simp))
    have gx := hT.geo hx.1
    have sx := hT.sep hb hx.1 hx.2
    have hx0 : x.bp ≠ 0 := by omega
    simp only [hd, hx0, and_false, if_false, true_and, ne_eq, not_true_eq_false,
      not_false_eq_true, and_self, if_true]
    refine ⟨_, rfl, insert_core h hb hf hp hk hL hsort ?_ ?_ ?_ ?_, rfl, rfl, rfl⟩
    · exact (((hT.put8 hx.1 _ _ (Or.inr rfl)).put8 hb _ 0 (Or.inr rfl)).put8 hb _ _
        (Or.inl rfl)).congr rfl rfl rfl rfl
    · show s.free_list = _
      rw [← Function.update_eq_self k s.free_list, hhead]
      simp [hd_append]
      cases pre' <;> simp [hd]
    · rw [Seg_append]
      constructor
      · apply Seg_set_next s.mem _ pre' x 0 _ _ _ _ _ hs1
        · intro z hz
          have hz' := hmem z (Or.inl (by simp [hz]))
          have hzx : x ≠ z := by
            intro e1; subst e1
            exact nodup_app_disj (List.nodup_append.1 hnd).1 x hz (by simp)
          have := hT.sep hb hz'.1 hz'.2
          have := hT.sep hx.1 hz'.1 hzx
          show get8 (put8 (put8 (put8 s.mem (x.bp + 8) b.bp) (b.bp + 8) 0) b.bp x.bp) z.bp = _ ∧
            get8 (put8 (put8 (put8 s.mem (x.bp + 8) b.bp) (b.bp + 8) 0) b.bp x.bp) (z.bp + 8) = _
          constructor <;>
            rw [get8_put8_ne _ _ _ _ (by omega), get8_put8_ne _ _ _ _ (by omega),
              get8_put8_ne _ _ _ _ (by omega)]
        · show get8 (put8 (put8 (put8 s.mem (x.bp + 8) b.bp) (b.bp + 8) 0) b.bp x.bp) x.bp = _
          rw [get8_put8_ne _ _ _ _ (by omega), get8_put8_ne _ _ _ _ (by omega),
            get8_put8_ne _ _ _ _ (by omega)]
        · show get8 (put8 (put8 (put8 s.mem (x.bp + 8) b.bp) (b.bp + 8) 0) b.bp x.bp)
            (x.bp + 8) = hd [b] 0
          rw [get8_put8_ne _ _ _ _ (by omega), get8_put8_ne _ _ _ _ (by omega), get8_put8_same]
          simp only [hd]
          apply Nat.mod_eq_of_lt; omega
      · rw [lst_snoc]
        refine ⟨?_, ?_, trivial⟩
        · show get8 (put8 (put8 (put8 s.mem (x.bp + 8) b.bp) (b.bp + 8) 0) b.bp x.bp) b.bp = x.bp
          rw [get8_put8_same]
          apply Nat.mod_eq_of_lt; omega
        · show get8 (put8 (put8 (put8 s.mem (x.bp + 8) b.bp) (b.bp + 8) 0) b.bp x.bp)
            (b.bp + 8) = 0
          rw [get8_put8_ne _ _ _ _ (by omega), get8_put8_same]; rfl
    · intro z hz hne hzp _
      have hzx : x ≠ z := fun e1 => hzp (by rw [e1]; simp)
      have := hT.sep hb hz (fun e => hne e.symm)
      have := hT.sep hx.1 hz hzx
      show get8 (put8 (put8 (put8 s.mem (x.bp + 8) b.bp) (b.bp + 8) 0) b.bp x.bp) z.bp = _ ∧
        get8 (put8 (put8 (put8 s.mem (x.bp + 8) b.bp) (b.bp + 8) 0) b.bp x.bp) (z.bp + 8) = _
      constructor <;>
        rw [get8_put8_ne _ _ _ _ (by omega), get8_put8_ne _ _ _ _ (by omega),
          get8_put8_ne _ _ _ _ (by omega)]
  · -- in the middle
    subst hpre
    rw [List.concat_eq_append] at hL hs1 hs2 hmem hnd hsort hhead ndz ⊢
    rw [lst_snoc] at hs2 ⊢
    have hx := hmem x (Or.inl (by simp))
    have gx := hT.geo hx.1
    have sx := hT.sep hb hx.1 hx.2
    have hx0 : x.bp ≠ 0 := by omega
    have hy := hmem y (Or.inr (List.mem_cons_self _ _))
    have gy := hT.geo hy.1
    have sy := hT.sep hb hy.1 hy.2
    have hy0 : y.bp ≠ 0 := by omega
    have hxy : x ≠ y := fun e1 => ndz x (by simp) (by simp [e1])
    have sxy := hT.sep hx.1 hy.1 hxy
    simp only [hd, hx0, hy0, and_false, false_and, if_false, ne_eq, not_true_eq_false,
      not_false_eq_true, and_self]
    simp only [hd] at hs1
    refine ⟨_, rfl, insert_core h hb hf hp hk hL hsort ?_ ?_ ?_ ?_, rfl, rfl, rfl⟩
    · exact ((((hT.put8 hx.1 _ _ (Or.inr rfl)).put8 hy.1 _ _ (Or.inl rfl)).put8 hb _ _
        (Or.inr rfl)).put8 hb _ _ (Or.inl rfl)).congr rfl rfl rfl rfl
    · show s.free_list = _
      rw [← Function.update_eq_self k s.free_list, hhead]
      simp [hd_append]
      cases pre' <;> simp [hd]
    · rw [Seg_append]
      constructor
      · apply Seg_set_next s.mem _ pre' x 0 _ _ _ _ _ hs1
        · intro z hz
          have hz' := hmem z (Or.inl (by simp [hz]))
          have hzx : x ≠ z := by
            intro e1; subst e1
            exact nodup_app_disj (List.nodup_append.1 hnd).1 x hz (by simp)
          have hzy : y ≠ z := fun e1 => ndz z (by simp [hz]) (by simp [e1])
          have := hT.sep hb hz'.1 hz'.2
          have := hT.sep hx.1 hz'.1 hzx
          have := hT.sep hy.1 hz'.1 hzy
          show get8 (put8 (put8 (put8 (put8 s.mem (x.bp + 8) b.bp) y.bp b.bp) (b.bp + 8) y.bp)
            b.bp x.bp) z.bp = _ ∧
            get8 (put8 (put8 (put8 (put8 s.mem (x.bp + 8) b.bp) y.bp b.bp) (b.bp + 8) y.bp)
              b.bp x.bp) (z.bp + 8) = _
          constructor <;>
            rw [get8_put8_ne _ _ _ _ (by omega), get8_put8_ne _ _ _ _ (by omega),
              get8_put8_ne _ _ _ _ (by omega), get8_put8_ne _ _ _ _ (by omega)]
        · show get8 (put8 (put8 (put8 (put8 s.mem (x.bp + 8) b.bp) y.bp b.bp) (b.bp + 8) y.bp)
            b.bp x.bp) x.bp = _
          rw [get8_put8_ne _ _ _ _ (by omega), get8_put8_ne _ _ _ _ (by omega),
            get8_put8_ne _ _ _ _ (by omega), get8_put8_ne _ _ _ _ (by omega)]
        · show get8 (put8 (put8 (put8 (put8 s.mem (x.bp + 8) b.bp) y.bp b.bp) (b.bp + 8) y.bp)
            b.bp x.bp) (x.bp + 8) = hd (b :: y :: post') 0
          rw [get8_put8_ne _ _ _ _ (by omega), get8_put8_ne _ _ _ _ (by omega),
            get8_put8_ne _ _ _ _ (by omega), get8_put8_same]
          simp only [hd]
          apply Nat.mod_eq_of_lt; omega
      · rw [lst_snoc]
        refine ⟨?_, ?_, ?_⟩
        · show get8 (put8 (put8 (put8 (put8 s.mem (x.bp + 8) b.bp) y.bp b.bp) (b.bp + 8) y.bp)
            b.bp x.bp) b.bp = x.bp
          rw [get8_put8_same]
          apply Nat.mod_eq_of_lt; omega
        · show get8 (put8 (put8 (put8 (put8 s.mem (x.bp + 8) b.bp) y.bp b.bp) (b.bp + 8) y.bp)
            b.bp x.bp) (b.bp + 8) = y.bp
          rw [get8_put8_ne _ _ _ _ (by omega), get8_put8_same]
          apply Nat.mod_eq_of_lt; omega
        · apply Seg_set_prev s.mem _ post' y x.bp b.bp 0 _ _ _ hs2
          · intro z hz
            have hz' := hmem z (Or.inr (List.mem_cons_of_mem _ hz))
            have hzy : y ≠ z := by
              intro e1; subst e1
              have := (List.nodup_append.1 hnd).2.1
              simp at this
              exact this.1 hz
            have hzx : x ≠ z := fun e1 => ndz z (by simp [e1]) (by simp [hz])
            have := hT.sep hb hz'.1 hz'.2
            have := hT.sep hx.1 hz'.1 hzx
            have := hT.sep hy.1 hz'.1 hzy
            show get8 (put8 (put8 (put8 (put8 s.mem (x.bp + 8) b.bp) y.bp b.bp) (b.bp + 8) y.bp)
              b.bp x.bp) z.bp = _ ∧
              get8 (put8 (put8 (put8 (put8 s.mem (x.bp + 8) b.bp) y.bp b.bp) (b.bp + 8) y.bp)
                b.bp x.bp) (z.bp + 8) = _
            constructor <;>
              rw [get8_put8_ne _ _ _ _ (by omega), get8_put8_ne _ _ _ _ (by omega),
                get8_put8_ne _ _ _ _ (by omega), get8_put8_ne _ _ _ _ (by omega)]
          · show get8 (put8 (put8 (put8 (put8 s.mem (x.bp + 8) b.bp) y.bp b.bp) (b.bp + 8) y.bp)
              b.bp x.bp) y.bp = b.bp
            rw [get8_put8_ne _ _ _ _ (by omega), get8_put8_ne _ _ _ _ (by omega), get8_put8_same]
            apply Nat.mod_eq_of_lt; omega
          · show get8 (put8 (put8 (put8 (put8 s.mem (x.bp + 8) b.bp) y.bp b.bp) (b.bp + 8) y.bp)
              b.bp x.bp) (y.bp + 8) = _
            rw [get8_put8_ne _ _ _ _ (by omega), get8_put8_ne _ _ _ _ (by omega),
              get8_put8_ne _ _ _ _ (by omega), get8_put8_ne _ _ _ _ (by omega)]
    · intro z hz hne hzp hzq
      have hzx : x ≠ z := fun e1 => hzp (by rw [e1]; simp)
      have hzy : y ≠ z := fun e1 => hzq (by rw [e1]; simp)
      have := hT.sep hb hz (fun e => hne e.symm)
      have := hT.sep hx.1 hz hzx
      have := hT.sep hy.1 hz hzy
      show get8 (put8 (put8 (put8 (put8 s.mem (x.bp + 8) b.bp) y.bp b.bp) (b.bp + 8) y.bp)
        b.bp x.bp) z.bp = _ ∧
        get8 (put8 (put8 (put8 (put8 s.mem (x.bp + 8) b.bp) y.bp b.bp) (b.bp + 8) y.bp)
          b.bp x.bp) (z.bp + 8) = _
      constructor <;>
        rw [get8_put8_ne _ _ _ _ (by omega), get8_put8_ne _ _ _ _ (by omega),
          get8_put8_ne _ _ _ _ (by omega), get8_put8_ne _ _ _ _ (by omega)]

theorem agreeOut_refl (m : Nat → Nat) (lo hi : Nat) : agreeOut m m lo hi := fun _ _ => rfl

theorem agreeOut_put4 {m m' : Nat → Nat} {lo hi : Nat} (h : agreeOut m m' lo hi) (a v : Nat)
    (h1 : lo ≤ a) (h2 : a + 4 ≤ hi) : agreeOut m (put4 m' a v) lo hi := by
  intro x hx
  have := h x hx
  unfold put4
  have h0 : x ≠ a := by omega
  have h1 : x ≠ a + 1 := by omega
  have h2 : x ≠ a + 2 := by omega
  have h3 : x ≠ a + 3 := by omega
  simp only [h0, h1, h2, h3, if_false]
  exact this

theorem get4_agree {m m' : Nat → Nat} {lo hi : Nat} (h : agreeOut m m' lo hi) (a : Nat)
    (ha : a + 4 ≤ lo ∨ hi ≤ a) : get4 m' a = get4 m a := by
  unfold get4
  rw [h a (by omega), h (a + 1) (by omega), h (a + 2) (by omega), h (a + 3) (by omega)]

theorem get8_agree {m m' : Nat → Nat} {lo hi : Nat} (h : agreeOut m m' lo hi) (a : Nat)
    (ha : a + 8 ≤ lo ∨ hi ≤ a) : get8 m' a = get8 m a := by
  unfold get8
  rw [get4_agree h a (by omega), get4_agree h (a + 4) (by omega)]

theorem agreeOut_mono {m m' : Nat → Nat} {lo hi lo' hi' : Nat} (h : agreeOut m m' lo hi)
    (h1 : lo' ≤ lo) (h2 : hi ≤ hi') : agreeOut m m' lo' hi' :=
  fun x hx => h x (by omega)

/-- Rewriting the tags inside a run of blocks that are in no bucket. -/
theorem retag {s s' : State} {L : Nat → List Blk} {pend : List Blk}
    {pre mid post : List Blk} {a e : Nat} (pend' mid' : List Blk)
    (h : Inv s (pre ++ mid ++ post) L pend)
    (hpre : pre ≠ [])
    (hca : Chain (s.heap_listp + 8) pre a) (hcm : Chain a mid e)
    (hcm' : Chain a mid' e)
    (hpend : ∀ z ∈ pend, z ∈ mid) (hpend' : ∀ z ∈ pend', z ∈ mid')
    (hfree : ∀ z ∈ mid, z.al = false → z ∈ pend)
    (hfree' : ∀ z ∈ mid', z.al = false → z ∈ pend')
    (hag : agreeOut s.mem s'.mem (a - 4) (e - 4))
    (htag : ∀ z ∈ mid', TagOK s'.mem z)
    (e1 : s'.heap_listp = s.heap_listp) (e2 : s'.mem_brk = s.mem_brk)
    (e3 : s'.mem_max_addr = s.mem_max_addr) (e4 : s'.free_list = s.free_list) :
    Inv s' (pre ++ mid' ++ post) L pend' := by
  have hT := h.tiled
  have hB := h.buckets
  have hch := hT.chain
  rw [List.append_assoc, Chain_append] at hch
  obtain ⟨a', hca', hch⟩ := hch
  have ea := Chain_unique_end _ _ _ _ hca hca'
  subst ea
  rw [Chain_append] at hch
  obtain ⟨e', hcm'', hcp⟩ := hch
  have ee := Chain_unique_end _ _ _ _ hcm hcm''
  subst ee
  have bpre := Chain_bounds _ _ _ hca
  have bmid := Chain_bounds _ _ _ hcm
  have bmid' := Chain_bounds _ _ _ hcm'
  have bpost := Chain_bounds _ _ _ hcp
  have hae := Chain_le _ _ _ hcm
  have heb := Chain_le _ _ _ hcp
  have hba := Chain_le _ _ _ hca
  have gpre : ∀ z ∈ pre, 24 ≤ z.sz := fun z hz => (hT.geo (by simp [hz])).2.2.2.1
  have gmid : ∀ z ∈ mid, 24 ≤ z.sz := fun z hz => (hT.geo (by simp [hz])).2.2.2.1
  have gpost : ∀ z ∈ post, 24 ≤ z.sz := fun z hz => (hT.geo (by simp [hz])).2.2.2.1
  have gmid' : ∀ z ∈ mid', 24 ≤ z.sz := fun z hz => (htag z hz).2.2.2
  -- members of buckets lie in `pre` or `post`
  have hLmem : ∀ k, k < NUM_CLASSES → ∀ z ∈ L k, z ∈ pre ∨ z ∈ post := by
    intro k hk z hz
    have hm := hB.mem k hk z hz
    have hc := (h.cover z hm.1 hm.2.1).1 (by rw [hm.2.2]; exact hz)
    have := hm.1
    simp only [List.mem_append] at this
    rcases this with (h1 | h1) | h1
    · exact Or.inl h1
    · exact absurd (hfree z h1 hm.2.1) hc
    · exact Or.inr h1
  have hT' : Tiled s' (pre ++ mid' ++ post) := by
    refine ⟨by rw [e1]; exact hT.base_pos, by rw [e2, e3]; exact hT.brk_le,
      by rw [e1, e3]; exact hT.max_lt, by rw [e3]; exact hT.max_lt64, ?_, ?_, ?_, ?_⟩
    · have := hT.head
      rw [e1]
      cases pre with
      | nil => exact absurd rfl hpre
      | cons x xs => simpa using this
    · rw [e1, e2, List.append_assoc, Chain_append]
      exact ⟨a, hca, (Chain_append _ _ _ _).2 ⟨e, hcm', hcp⟩⟩
    · intro z hz
      simp only [List.mem_append] at hz
      rcases hz with (h1 | h1) | h1
      · obtain ⟨t1, t2, t3, t4⟩ := hT.tags z (by simp [h1])
        have := bpre z h1
        have := hT.geo (z := z) (by simp [h1])
        exact ⟨by rw [get4_agree hag _ (by omega)]; exact t1,
          by rw [get4_agree hag _ (by omega)]; exact t2, t3, t4⟩
      · exact htag z h1
      · obtain ⟨t1, t2, t3, t4⟩ := hT.tags z (by simp [h1])
        have := bpost z h1
        exact ⟨by rw [get4_agree hag _ (by omega)]; exact t1,
          by rw [get4_agree hag _ (by omega)]; exact t2, t3, t4⟩
    · rw [e2, get4_agree hag _ (by omega)]; exact hT.epi
  refine ⟨hT', ⟨?_, ?_, ?_, hB.sorted, hB.nodup⟩, ?_⟩
  · intro k hk; rw [e4]; exact hB.head k hk
  · intro k hk
    apply Seg_frame s.mem s'.mem _ _ _ _ (hB.seg k hk)
    intro z hz
    rcases hLmem k hk z hz with h1 | h1
    · have := bpre z h1
      have := gpre z h1
      exact ⟨get8_agree hag _ (by omega), get8_agree hag _ (by omega)⟩
    · have := bpost z h1
      exact ⟨get8_agree hag _ (by omega), get8_agree hag _ (by omega)⟩
  · intro k hk z hz
    have hm := hB.mem k hk z hz
    refine ⟨?_, hm.2⟩
    rcases hLmem k hk z hz with h1 | h1 <;> simp [h1]
  · intro z hz hf
    simp only [List.mem_append] at hz
    have notmid' : z ∈ pre ∨ z ∈ post → z ∉ mid' := by
      intro hz1 hz2
      have := bmid' z hz2
      have := gmid' z hz2
      rcases hz1 with h1 | h1
      · have := bpre z h1; omega
      · have := bpost z h1; omega
    have notmid : z ∈ pre ∨ z ∈ post → z ∉ mid := by
      intro hz1 hz2
      have := bmid z hz2
      have := gmid z hz2
      rcases hz1 with h1 | h1
      · have := bpre z h1; omega
      · have := bpost z h1; omega
    rcases hz with (h1 | h1) | h1
    · have hc := h.cover z (by simp [h1]) hf
      rw [hc]
      have n1 : z ∉ pend := fun hc => notmid (Or.inl h1) (hpend z hc)
      have n2 : z ∉ pend' := fun hc => notmid' (Or.inl h1) (hpend' z hc)
      simp [n1, n2]
    · have n1 : z ∈ pend' := hfree' z h1 hf
      have n2 : z ∉ L (get_size_class z.sz) := by
        intro hc
        exact notmid' (hLmem _ (get_size_class_lt _) z hc) h1
      simp [n1, n2]
    · have hc := h.cover z (by simp [h1]) hf
      rw [hc]
      have n1 : z ∉ pend := fun hc => notmid (Or.inr h1) (hpend z hc)
      have n2 : z ∉ pend' := fun hc => notmid' (Or.inr h1) (hpend' z hc)
      simp [n1, n2]

theorem Buckets.length_le {s : State} {bs : List Blk} {L : Nat → List Blk} (hB : Buckets s bs L)
    {k : Nat} (hk : k < NUM_CLASSES) : (L k).length ≤ bs.length := by
  have h1 : L k ⊆ bs := fun z hz => (hB.mem k hk z hz).1
  exact ((hB.nodup k hk).subperm h1).length_le

/-- Writing the header and then the footer of a block, as every retagging in the
program does. -/
theorem write_tags (m : Nat → Nat) (p size : Nat) (al : Bool) (h8 : size % 8 = 0)
    (h24 : 24 ≤ size) (hlt : size < 2 ^ 31) (hp : 4 ≤ p) (hp64 : p + size < 2 ^ 64) :
    let v := PACK size (if al then 1 else 0)
    let m2 := PUT m (HDRP p) v
    let m3 := PUT m2 (FTRP m2 p) v
    FTRP m2 p = p + size - 8 ∧ TagOK m3 ⟨p, size, al⟩ ∧ agreeOut m m3 (p - 4) (p + size - 4) ∧
      NEXT_BLKP m3 p = p + size := by
  intro v m2 m3
  have hv : v = (Blk.mk p size al).tag := by
    show PACK size (if al then 1 else 0) = _
    unfold Blk.tag
    cases al
    · simp [PACK_zero]
    · simp [PACK_one _ h8]
  have hvlt : v < 2 ^ 32 := by rw [hv]; exact Blk.tag_lt _ hlt
  have hhdr : get4 m2 (p - 4) = (Blk.mk p size al).tag := by
    show get4 (put4 m (p - 4) v) (p - 4) = _
    rw [get4_put4_same, Nat.mod_eq_of_lt hvlt, hv]
  have hsz : GET_SIZE m2 (HDRP p) = size := GET_SIZE_of_tag m2 (p - 4) ⟨p, size, al⟩ hhdr h8 hlt
  have hf : FTRP m2 p = p + size - 8 := by
    unfold FTRP; rw [hsz]; unfold SIZE_MOD DSIZE; omega
  have hm3 : m3 = put4 (put4 m (p - 4) v) (p + size - 8) v := by
    show put4 m2 (FTRP m2 p) v = _
    rw [hf]; rfl
  have hhdr3 : get4 m3 (p - 4) = (Blk.mk p size al).tag := by
    rw [hm3, get4_put4_ne _ _ _ _ (by omega), get4_put4_same, Nat.mod_eq_of_lt hvlt, hv]
  refine ⟨hf, ⟨hhdr3, ?_, h8, h24⟩, ?_, ?_⟩
  · show get4 m3 (p + size - 8) = _
    rw [hm3, get4_put4_same, Nat.mod_eq_of_lt hvlt, hv]
  · rw [hm3]
    exact agreeOut_put4 (agreeOut_put4 (agreeOut_refl m _ _) _ _ (by omega) (by omega)) _ _
      (by omega) (by omega)
  · have e3 : GET_SIZE m3 (HDRP p) = size := GET_SIZE_of_tag m3 (p - 4) ⟨p, size, al⟩ hhdr3 h8 hlt
    unfold NEXT_BLKP
    rw [e3]
    unfold SIZE_MOD; omega

/-- Reading the physical neighbours of a block. -/
theorem Tiled.prev {s : State} {pre post : List Blk} {x b : Blk}
    (h : Tiled s (pre ++ x :: b :: post)) : PREV_BLKP s.mem b.bp = x.bp ∧ x.bp + x.sz = b.bp := by
  have hx : x ∈ pre ++ x :: b :: post := by simp
  have gx := h.geo hx
  have hch := h.chain
  rw [Chain_append] at hch
  obtain ⟨a, -, hc⟩ := hch
  obtain ⟨h1, h2, -⟩ := hc
  have hadj : x.bp + x.sz = b.bp := by omega
  refine ⟨?_, hadj⟩
  unfold PREV_BLKP HDRP WSIZE
  have hf := (h.tags x hx).2.1
  rw [show b.bp - 4 - 4 = x.bp + x.sz - 8 by omega,
    GET_SIZE_of_tag _ _ x hf gx.2.2.1 gx.2.2.2.2.1]
  unfold SIZE_MOD; omega

theorem Tiled.next_alloc {s : State} {pre post : List Blk} {b : Blk}
    (h : Tiled s (pre ++ b :: post)) :
    GET_ALLOC s.mem (HDRP (NEXT_BLKP s.mem b.bp)) = if nextAl post then 1 else 0 := by
  have hb : b ∈ pre ++ b :: post := by simp
  rw [h.next hb]
  have hch := h.chain
  rw [Chain_append] at hch
  obtain ⟨a, -, hc⟩ := hch
  obtain ⟨h1, h2⟩ := hc
  cases post with
  | nil =>
    have : b.bp + b.sz = s.mem_brk := by simp [Chain] at h2; omega
    have he := h.epi
    unfold GET_ALLOC GET HDRP WSIZE
    rw [this, he]; rfl
  | cons y post' =>
    have hy : y ∈ pre ++ b :: y :: post' := by simp
    have : b.bp + b.sz = y.bp := by have := h2.1; omega
    rw [this, h.alloc hy]; rfl

theorem Tiled.next_blk {s : State} {pre post : List Blk} {b y : Blk}
    (h : Tiled s (pre ++ b :: y :: post)) : NEXT_BLKP s.mem b.bp = y.bp := by
  have hb : b ∈ pre ++ b :: y :: post := by simp
  rw [h.next hb]
  have hch := h.chain
  rw [Chain_append] at hch
  obtain ⟨a, -, hc⟩ := hch
  obtain ⟨h1, h2, -⟩ := hc
  omega

theorem filter_ne_singleton (b : Blk) : [b].filter (fun z => decide (z ≠ b)) = [] := by simp

/-- Case 1 of `coalesce`: both neighbours allocated. -/
theorem coalesce_case1 {s : State} {L : Nat → List Blk} {pre post : List Blk} {x b : Blk}
    (h : Inv s (pre ++ x :: b :: post) L [b]) (hbf : b.al = false) (hx : x.al = true)
    (hn : nextAl post = true) (fuel : Nat) (hfuel : (pre ++ x :: b :: post).length < fuel) :
    ∃ s', coalesce fuel s b.bp = some (b.bp, s') ∧
      Inv s' (pre ++ x :: b :: post)
        (Function.update L (get_size_class b.sz) (sortedInsert b (L (get_size_class b.sz)))) [] ∧
      s'.heap_listp = s.heap_listp ∧ s'.mem_brk = s.mem_brk ∧
      s'.mem_max_addr = s.mem_max_addr := by
  have hT := h.tiled
  have hb : b ∈ pre ++ x :: b :: post := by simp
  have hxm : x ∈ pre ++ x :: b :: post := by simp
  have hpa : GET_ALLOC s.mem (HDRP (PREV_BLKP s.mem b.bp)) = 1 := by
    rw [hT.prev.1, hT.alloc hxm, hx]; rfl
  have hT' : Tiled s ((pre ++ [x]) ++ b :: post) := by simpa using hT
  have hna : GET_ALLOC s.mem (HDRP (NEXT_BLKP s.mem b.bp)) = 1 := by
    rw [hT'.next_alloc, hn]; rfl
  obtain ⟨s', hs', hI, e1, e2, e3⟩ := insert_block_inv h hb hbf (List.mem_singleton_self b)
    fuel (lt_of_le_of_lt (h.buckets.length_le (get_size_class_lt _)) hfuel)
  refine ⟨s', ?_, ?_, e1, e2, e3⟩
  · unfold coalesce
    simp only [hpa, hna, ne_eq, one_ne_zero, not_false_eq_true, and_self, if_true, hs']
  · rw [filter_ne_singleton] at hI; exact hI

/-- The memory after the header and the footer of a block were written. -/
theorem retag_one {s : State} {L : Nat → List Blk} {pend : List Blk}
    {pre mid post : List Blk} (nb : Blk)
    (h : Inv s (pre ++ mid ++ post) L pend) (hpre : pre ≠ [])
    (hca : Chain (s.heap_listp + 8) pre nb.bp) (hcm : Chain nb.bp mid (nb.bp + nb.sz))
    (hpend : ∀ z ∈ pend, z ∈ mid) (hfree : ∀ z ∈ mid, z.al = false → z ∈ pend)
    (h8 : nb.sz % 8 = 0) (h24 : 24 ≤ nb.sz) :
    Inv { s with mem := write_block s.mem nb.bp nb.sz (if nb.al then 1 else 0) }
      (pre ++ [nb] ++ post) L (if nb.al then [] else [nb]) := by
  have hT := h.tiled
  have hch := hT.chain
  rw [List.append_assoc, Chain_append] at hch
  obtain ⟨a', hca', hch⟩ := hch
  have ea := Chain_unique_end _ _ _ _ hca hca'
  subst ea
  rw [Chain_append] at hch
  obtain ⟨e', hcm'', hcp⟩ := hch
  have ee := Chain_unique_end _ _ _ _ hcm hcm''
  subst ee
  have hba := Chain_le _ _ _ hca
  have heb := Chain_le _ _ _ hcp
  have := hT.brk_le
  have := hT.max_lt
  have := hT.max_lt64
  obtain ⟨hf, ht, hag, -⟩ := write_tags s.mem nb.bp nb.sz nb.al h8 h24 (by omega) (by omega)
    (by omega)
  refine retag (if nb.al then [] else [nb]) [nb] h hpre hca hcm ⟨rfl, rfl⟩
    hpend ?_ hfree ?_ hag ?_ rfl rfl rfl rfl
  · intro z hz
    split at hz
    · simp at hz
    · exact hz
  · intro z hz hzf
    rw [List.mem_singleton] at hz
    subst hz
    simp [hzf]
  · intro z hz
    rw [List.mem_singleton] at hz
    subst hz
    exact ht

theorem Tiled.size_sum_lt {s : State} {bs : List Blk} (h : Tiled s bs) {a e : Nat}
    (ha : s.heap_listp + 8 ≤ a) (he : e ≤ s.mem_brk) (hae : a ≤ e) :
    e - a < 2 ^ 31 ∧ e < 2 ^ 64 := by
  have := h.brk_le
  have := h.max_lt
  have := h.max_lt64
  omega

/-- Case 2 of `coalesce`: the next block is free, the previous one is not. -/
theorem coalesce_case2 {s : State} {L : Nat → List Blk} {pre post : List Blk} {x b y : Blk}
    (h : Inv s (pre ++ x :: b :: y :: post) L [b]) (hbf : b.al = false) (hx : x.al = true)
    (hy : y.al = false) (fuel : Nat) (hfuel : (pre ++ x :: b :: y :: post).length < fuel) :
    ∃ s', coalesce fuel s b.bp = some (b.bp, s') ∧
      Inv s' (pre ++ x :: ⟨b.bp, b.sz + y.sz, false⟩ :: post)
        (Function.update
          (Function.update L (get_size_class y.sz) ((L (get_size_class y.sz)).erase y))
          (get_size_class (b.sz + y.sz))
          (sortedInsert ⟨b.bp, b.sz + y.sz, false⟩
            ((Function.update L (get_size_class y.sz) ((L (get_size_class y.sz)).erase y))
              (get_size_class (b.sz + y.sz))))) [] ∧
      s'.heap_listp = s.heap_listp ∧ s'.mem_brk = s.mem_brk ∧
      s'.mem_max_addr = s.mem_max_addr := by
  have hT := h.tiled
  have hb : b ∈ pre ++ x :: b :: y :: post := by simp
  have hxm : x ∈ pre ++ x :: b :: y :: post := by simp
  have hym : y ∈ pre ++ x :: b :: y :: post := by simp
  have gb := hT.geo hb
  have gy := hT.geo hym
  have hpa : GET_ALLOC s.mem (HDRP (PREV_BLKP s.mem b.bp)) = 1 := by
    rw [hT.prev.1, hT.alloc hxm, hx]; rfl
  have hT' : Tiled s ((pre ++ [x]) ++ b :: y :: post) := by simpa using hT
  have hna : GET_ALLOC s.mem (HDRP (NEXT_BLKP s.mem b.bp)) = 0 := by
    rw [hT'.next_alloc]; simp [nextAl, hy]
  have hnb : NEXT_BLKP s.mem b.bp = y.bp := hT'.next_blk
  have hadj : b.bp + b.sz = y.bp := by rw [← hnb, hT.next hb]
  have hyb : y ≠ b := by intro e; rw [e] at hadj; omega
  have hyL : y ∈ L (get_size_class y.sz) := (h.cover y hym hy).2 (by simp [hyb])
  obtain ⟨hI1, d1, d2, d3⟩ := delete_block_inv h (get_size_class_lt _) hyL
  generalize hL1 : Function.update L (get_size_class y.sz) ((L (get_size_class y.sz)).erase y)
    = L1 at hI1 ⊢
  generalize hs1 : delete_block s y.bp = s1 at hI1 d1 d2 d3
  -- the merged block
  have hch := hT'.chain
  rw [Chain_append] at hch
  obtain ⟨a, hca, hcb⟩ := hch
  have hab : a = b.bp := hcb.1.symm
  subst hab
  have hI1' : Inv s1 ((pre ++ [x]) ++ [b, y] ++ post) L1 [y, b] := by simpa using hI1
  have hI2 := retag_one ⟨b.bp, b.sz + y.sz, false⟩ hI1' (by simp)
    (by rw [d1]; exact hca) ⟨rfl, hadj.symm, Nat.add_assoc _ _ _⟩
    (by intro z hz; simp at hz ⊢; tauto) (by intro z hz _; simp at hz ⊢; tauto)
    (by show (b.sz + y.sz) % 8 = 0; omega) (by show 24 ≤ b.sz + y.sz; omega)
  simp only [Bool.false_eq_true, if_false] at hI2
  have hmem : (⟨b.bp, b.sz + y.sz, false⟩ : Blk) ∈ pre ++ [x] ++ [⟨b.bp, b.sz + y.sz, false⟩] ++ post := by
    simp
  obtain ⟨s', hs', hI3, e1, e2, e3⟩ := insert_block_inv hI2 hmem rfl (List.mem_singleton_self _)
    fuel (by
      refine lt_of_le_of_lt (hI2.buckets.length_le (get_size_class_lt _)) ?_
      simp at hfuel ⊢; omega)
  refine ⟨s', ?_, ?_, e1.trans d1, e2.trans d2, e3.trans d3⟩
  · unfold coalesce
    unfold write_block at hs'
    have hszs : (GET_SIZE s.mem (HDRP b.bp) + GET_SIZE s.mem (HDRP y.bp)) % SIZE_MOD
        = b.sz + y.sz := by
      rw [hT.size hb, hT.size hym]; unfold SIZE_MOD; omega
    rw [hnb] at hna
    simp only [hpa, hna, hnb, hszs, hs1, ne_eq, one_ne_zero, not_false_eq_true, and_self,
      if_true, not_true_eq_false, and_false, if_false, hs']
  · rw [filter_ne_singleton] at hI3
    simpa using hI3

theorem Tiled.pre_ne_nil {s : State} {pre post : List Blk} {x : Blk}
    (h : Tiled s (pre ++ x :: post)) (hx : x.al = false) : pre ≠ [] := by
  intro e
  subst e
  have := h.head
  simp [prologue] at this
  rw [this] at hx
  simp at hx

/-- Case 3 of `coalesce`: the previous block is free, the next one is not. -/
theorem coalesce_case3 {s : State} {L : Nat → List Blk} {pre post : List Blk} {x b : Blk}
    (h : Inv s (pre ++ x :: b :: post) L [b]) (hbf : b.al = false) (hx : x.al = false)
    (hn : nextAl post = true) (fuel : Nat) (hfuel : (pre ++ x :: b :: post).length < fuel) :
    ∃ s', coalesce fuel s b.bp = some (x.bp, s') ∧
      Inv s' (pre ++ ⟨x.bp, x.sz + b.sz, false⟩ :: post)
        (Function.update
          (Function.update L (get_size_class x.sz) ((L (get_size_class x.sz)).erase x))
          (get_size_class (x.sz + b.sz))
          (sortedInsert ⟨x.bp, x.sz + b.sz, false⟩
            ((Function.update L (get_size_class x.sz) ((L (get_size_class x.sz)).erase x))
              (get_size_class (x.sz + b.sz))))) [] ∧
      s'.heap_listp = s.heap_listp ∧ s'.mem_brk = s.mem_brk ∧
      s'.mem_max_addr = s.mem_max_addr := by
  have hT := h.tiled
  have hb : b ∈ pre ++ x :: b :: post := by simp
  have hxm : x ∈ pre ++ x :: b :: post := by simp
  have gb := hT.geo hb
  have gx := hT.geo hxm
  have hpb : PREV_BLKP s.mem b.bp = x.bp := hT.prev.1
  have hadj : x.bp + x.sz = b.bp := hT.prev.2
  have hpa : GET_ALLOC s.mem (HDRP x.bp) = 0 := by
    rw [hT.alloc hxm, hx]; rfl
  have hT' : Tiled s ((pre ++ [x]) ++ b :: post) := by simpa using hT
  have hna : GET_ALLOC s.mem (HDRP (NEXT_BLKP s.mem b.bp)) = 1 := by
    rw [hT'.next_alloc, hn]; rfl
  have hxb : x ≠ b := by intro e; rw [e] at hadj; omega
  have hxL : x ∈ L (get_size_class x.sz) := (h.cover x hxm hx).2 (by simp [hxb])
  obtain ⟨hI1, d1, d2, d3⟩ := delete_block_inv h (get_size_class_lt _) hxL
  generalize hL1 : Function.update L (get_size_class x.sz) ((L (get_size_class x.sz)).erase x)
    = L1 at hI1 ⊢
  generalize hs1 : delete_block s x.bp = s1 at hI1 d1 d2 d3
  have hpb1 : PREV_BLKP s1.mem b.bp = x.bp := hI1.tiled.prev.1
  have hch := hT.chain
  rw [Chain_append] at hch
  obtain ⟨a, hca, hcb⟩ := hch
  have hab : a = x.bp := hcb.1.symm
  subst hab
  have hI1' : Inv s1 (pre ++ [x, b] ++ post) L1 [x, b] := by simpa using hI1
  have hI2 := retag_one ⟨x.bp, x.sz + b.sz, false⟩ hI1' (hT.pre_ne_nil hx)
    (by rw [d1]; exact hca) ⟨rfl, hadj.symm, Nat.add_assoc _ _ _⟩
    (by intro z hz; simp at hz ⊢; tauto) (by intro z hz _; simp at hz ⊢; tauto)
    (by show (x.sz + b.sz) % 8 = 0; omega) (by show 24 ≤ x.sz + b.sz; omega)
  simp only [Bool.false_eq_true, if_false] at hI2
  have hmem : (⟨x.bp, x.sz + b.sz, false⟩ : Blk) ∈ pre ++ [⟨x.bp, x.sz + b.sz, false⟩] ++ post := by
    simp
  obtain ⟨s', hs', hI3, e1, e2, e3⟩ := insert_block_inv hI2 hmem rfl (List.mem_singleton_self _)
    fuel (by
      refine lt_of_le_of_lt (hI2.buckets.length_le (get_size_class_lt _)) ?_
      simp at hfuel ⊢; omega)
  refine ⟨s', ?_, ?_, e1.trans d1, e2.trans d2, e3.trans d3⟩
  · unfold coalesce
    unfold write_block at hs'
    have hszs : (GET_SIZE s.mem (HDRP b.bp) + GET_SIZE s.mem (HDRP x.bp)) % SIZE_MOD
        = x.sz + b.sz := by
      rw [hT.size hb, hT.size hxm]; unfold SIZE_MOD; omega
    simp only [hpb, hpa, hna, hszs, hs1, hpb1, ne_eq, one_ne_zero, not_false_eq_true, and_self,
      if_true, not_true_eq_false, and_false, false_and, and_true, if_false, hs']
  · rw [filter_ne_singleton] at hI3
    simpa using hI3

/-- Case 4 of `coalesce`: both neighbours are free. -/
theorem coalesce_case4 {s : State} {L : Nat → List Blk} {pre post : List Blk} {x b y : Blk}
    (h : Inv s (pre ++ x :: b :: y :: post) L [b]) (hbf : b.al = false) (hx : x.al = false)
    (hy : y.al = false) (fuel : Nat) (hfuel : (pre ++ x :: b :: y :: post).length < fuel) :
    ∃ s', coalesce fuel s b.bp = some (x.bp, s') ∧
      Inv s' (pre ++ ⟨x.bp, x.sz + b.sz + y.sz, false⟩ :: post)
        (Function.update
          (Function.update
            (Function.update L (get_size_class x.sz) ((L (get_size_class x.sz)).erase x))
            (get_size_class y.sz)
            (((Function.update L (get_size_class x.sz) ((L (get_size_class x.sz)).erase x))
              (get_size_class y.sz)).erase y))
          (get_size_class (x.sz + b.sz + y.sz))
          (sortedInsert ⟨x.bp, x.sz + b.sz + y.sz, false⟩
            ((Function.update
              (Function.update L (get_size_class x.sz) ((L (get_size_class x.sz)).erase x))
              (get_size_class y.sz)
              (((Function.update L (get_size_class x.sz) ((L (get_size_class x.sz)).erase x))
                (get_size_class y.sz)).erase y))
              (get_size_class (x.sz + b.sz + y.sz))))) [] ∧
      s'.heap_listp = s.heap_listp ∧ s'.mem_brk = s.mem_brk ∧
      s'.mem_max_addr = s.mem_max_addr := by
  have hT := h.tiled
  have hb : b ∈ pre ++ x :: b :: y :: post := by simp
  have hxm : x ∈ pre ++ x :: b :: y :: post := by simp
  have hym : y ∈ pre ++ x :: b :: y :: post := by simp
  have gb := hT.geo hb
  have gx := hT.geo hxm
  have gy := hT.geo hym
  have hpb : PREV_BLKP s.mem b.bp = x.bp := hT.prev.1
  have hadj : x.bp + x.sz = b.bp := hT.prev.2
  have hpa : GET_ALLOC s.mem (HDRP x.bp) = 0 := by
    rw [hT.alloc hxm, hx]; rfl
  have hT' : Tiled s ((pre ++ [x]) ++ b :: y :: post) := by simpa using hT
  have hna : GET_ALLOC s.mem (HDRP (NEXT_BLKP s.mem b.bp)) = 0 := by
    rw [hT'.next_alloc]; simp [nextAl, hy]
  have hnb : NEXT_BLKP s.mem b.bp = y.bp := hT'.next_blk
  have hadj2 : b.bp + b.sz = y.bp := by rw [← hnb, hT.next hb]
  have hxb : x ≠ b := by intro e; rw [e] at hadj; omega
  have hyb : y ≠ b := by intro e; rw [e] at hadj2; omega
  have hyx : y ≠ x := by intro e; rw [e] at hadj2; omega
  have hxL : x ∈ L (get_size_class x.sz) := (h.cover x hxm hx).2 (by simp [hxb])
  obtain ⟨hI1, d1, d2, d3⟩ := delete_block_inv h (get_size_class_lt _) hxL
  generalize hL1 : Function.update L (get_size_class x.sz) ((L (get_size_class x.sz)).erase x)
    = L1 at hI1 ⊢
  generalize hs1 : delete_block s x.bp = s1 at hI1 d1 d2 d3
  have hT1' : Tiled s1 ((pre ++ [x]) ++ b :: y :: post) := by simpa using hI1.tiled
  have hnb1 : NEXT_BLKP s1.mem b.bp = y.bp := hT1'.next_blk
  have hyL : y ∈ L1 (get_size_class y.sz) := (hI1.cover y hym hy).2 (by simp [hyb, hyx])
  obtain ⟨hI2, f1, f2, f3⟩ := delete_block_inv hI1 (get_size_class_lt _) hyL
  generalize hL2 : Function.update L1 (get_size_class y.sz) ((L1 (get_size_class y.sz)).erase y)
    = L2 at hI2 ⊢
  generalize hs2 : delete_block s1 y.bp = s2 at hI2 f1 f2 f3
  have hT2 := hI2.tiled
  have hpb2 : PREV_BLKP s2.mem b.bp = x.bp := hT2.prev.1
  have hT2' : Tiled s2 ((pre ++ [x]) ++ b :: y :: post) := by simpa using hT2
  have hnb2 : NEXT_BLKP s2.mem b.bp = y.bp := hT2'.next_blk
  have hch := hT.chain
  rw [Chain_append] at hch
  obtain ⟨a, hca, hcb⟩ := hch
  have hab : a = x.bp := hcb.1.symm
  subst hab
  have hI2' : Inv s2 (pre ++ [x, b, y] ++ post) L2 [y, x, b] := by simpa using hI2
  have hI3 := retag_one ⟨x.bp, x.sz + b.sz + y.sz, false⟩ hI2' (hT.pre_ne_nil hx)
    (by rw [f1, d1]; exact hca)
    ⟨rfl, hadj.symm, by show y.bp = x.bp + x.sz + b.sz; omega,
      by show x.bp + x.sz + b.sz + y.sz = x.bp + (x.sz + b.sz + y.sz); omega⟩
    (by intro z hz; simp at hz ⊢; tauto) (by intro z hz _; simp at hz ⊢; tauto)
    (by show (x.sz + b.sz + y.sz) % 8 = 0; omega) (by show 24 ≤ x.sz + b.sz + y.sz; omega)
  simp only [Bool.false_eq_true, if_false] at hI3
  have hmem : (⟨x.bp, x.sz + b.sz + y.sz, false⟩ : Blk) ∈
      pre ++ [⟨x.bp, x.sz + b.sz + y.sz, false⟩] ++ post := by
    simp
  obtain ⟨s', hs', hI4, e1, e2, e3⟩ := insert_block_inv hI3 hmem rfl (List.mem_singleton_self _)
    fuel (by
      refine lt_of_le_of_lt (hI3.buckets.length_le (get_size_class_lt _)) ?_
      simp at hfuel ⊢; omega)
  refine ⟨s', ?_, ?_, (e1.trans f1).trans d1, (e2.trans f2).trans d2, (e3.trans f3).trans d3⟩
  · unfold coalesce
    unfold write_block at hs'
    have hszs : (GET_SIZE s.mem (HDRP b.bp) +
        (GET_SIZE s2.mem (HDRP x.bp) + GET_SIZE s2.mem (HDRP y.bp)) % SIZE_MOD) % SIZE_MOD
        = x.sz + b.sz + y.sz := by
      rw [hT.size hb, hT2.size hxm, hT2.size hym]; unfold SIZE_MOD; omega
    rw [hnb] at hna
    simp only [hpb, hpa, hna, hnb, hs1, hnb1, hs2, hpb2, hnb2, hszs, ne_eq, one_ne_zero,
      not_false_eq_true, and_self, if_true, not_true_eq_false, and_false, false_and, and_true,
      if_false, hs']
  · rw [filter_ne_singleton] at hI4
    simpa using hI4

theorem chain_replace_last (pre : List Blk) (x m : Blk)
    (h : List.Chain' (fun a b : Blk => a.al = true ∨ b.al = true) (pre ++ [x]))
    (hx : x.al = false) :
    List.Chain' (fun a b : Blk => a.al = true ∨ b.al = true) (pre ++ [m]) := by
  rcases List.eq_nil_or_concat pre with e | ⟨pre', l, e⟩
  · subst e; simp
  · subst e
    rw [List.concat_eq_append, List.append_assoc, List.singleton_append, List.chain'_split] at h ⊢
    refine ⟨h.1, ?_⟩
    have := h.2
    simp only [List.chain'_cons, List.chain'_singleton, and_true] at this ⊢
    rcases this with h1 | h1
    · exact Or.inl h1
    · rw [hx] at h1; simp at h1

theorem chain_replace_head (post : List Blk) (y m : Blk)
    (h : List.Chain' (fun a b : Blk => a.al = true ∨ b.al = true) (y :: post))
    (hy : y.al = false) :
    List.Chain' (fun a b : Blk => a.al = true ∨ b.al = true) (m :: post) := by
  cases post with
  | nil => simp
  | cons w rest =>
    rw [List.chain'_cons] at h ⊢
    refine ⟨?_, h.2⟩
    rcases h.1 with h1 | h1
    · rw [hy] at h1; simp at h1
    · exact Or.inr h1

theorem NoAdjFree_coalesce (pre post : List Blk) (x b : Blk)
    (h : NoAdjFree (pre ++ x :: ⟨b.bp, b.sz, true⟩ :: post)) :
    NoAdjFree (coalesceBlocks pre x b post) := by
  unfold NoAdjFree at *
  rw [List.chain'_split, List.chain'_cons] at h
  obtain ⟨h1, -, h3⟩ := h
  unfold coalesceBlocks
  cases hx : x.al
  · cases post with
    | nil => exact chain_replace_last pre x _ h1 hx
    | cons y post' =>
      have h4 := (List.chain'_cons.1 h3).2
      simp only []
      split
      · rw [List.chain'_split]
        refine ⟨chain_replace_last pre x _ h1 hx, List.chain'_cons.2 ⟨Or.inr ‹_›, h4⟩⟩
      · rw [List.chain'_split]
        exact ⟨chain_replace_last pre x _ h1 hx, chain_replace_head post' y _ h4 (by simpa using ‹¬ y.al = true›)⟩
  · cases post with
    | nil =>
      show List.Chain' _ (pre ++ [x, b])
      rw [List.chain'_split]
      exact ⟨h1, by simp [hx]⟩
    | cons y post' =>
      have h4 := (List.chain'_cons.1 h3).2
      simp only []
      split
      · rw [List.chain'_split]
        exact ⟨h1, List.chain'_cons.2 ⟨Or.inl hx, List.chain'_cons.2 ⟨Or.inr ‹_›, h4⟩⟩⟩
      · rw [List.chain'_split]
        exact ⟨h1, List.chain'_cons.2 ⟨Or.inl hx,
          chain_replace_head post' y _ h4 (by simpa using ‹¬ y.al = true›)⟩⟩

/-- The four cases of `coalesce` together. -/
theorem coalesce_inv {s : State} {L : Nat → List Blk} {pre post : List Blk} {x b : Blk}
    (h : Inv s (pre ++ x :: b :: post) L [b]) (hbf : b.al = false)
    (fuel : Nat) (hfuel : (pre ++ x :: b :: post).length < fuel) :
    ∃ s' L', coalesce fuel s b.bp = some (coalescePtr x b, s') ∧
      Inv s' (coalesceBlocks pre x b post) L' [] ∧
      s'.heap_listp = s.heap_listp ∧ s'.mem_brk = s.mem_brk ∧
      s'.mem_max_addr = s.mem_max_addr := by
  unfold coalesceBlocks coalescePtr
  cases hx : x.al
  · cases post with
    | nil =>
      obtain ⟨s', h1, h2, h3⟩ := coalesce_case3 h hbf hx rfl fuel hfuel
      exact ⟨s', _, by simpa using h1, by simpa using h2, h3⟩
    | cons y post' =>
      cases hy : y.al <;> simp only [hy, Bool.false_eq_true, if_false, if_true]
      · obtain ⟨s', h1, h2, h3⟩ := coalesce_case4 h hbf hx hy fuel hfuel
        exact ⟨s', _, by simpa using h1, by simpa using h2, h3⟩
      · obtain ⟨s', h1, h2, h3⟩ := coalesce_case3 h hbf hx (by simpa [nextAl] using hy) fuel hfuel
        exact ⟨s', _, by simpa using h1, by simpa using h2, h3⟩
  · cases post with
    | nil =>
      obtain ⟨s', h1, h2, h3⟩ := coalesce_case1 h hbf hx rfl fuel hfuel
      exact ⟨s', _, by simpa using h1, by simpa using h2, h3⟩
    | cons y post' =>
      cases hy : y.al <;> simp only [hy, Bool.false_eq_true, if_false, if_true]
      · obtain ⟨s', h1, h2, h3⟩ := coalesce_case2 h hbf hx hy fuel hfuel
        exact ⟨s', _, by simpa using h1, by simpa using h2, h3⟩
      · obtain ⟨s', h1, h2, h3⟩ := coalesce_case1 h hbf hx (by simpa [nextAl] using hy) fuel hfuel
        exact ⟨s', _, by simpa using h1, by simpa using h2, h3⟩

theorem find_fit_list_eq (m : Nat → Nat) (asize : Nat) (l : List Blk) (p0 fuel : Nat)
    (hseg : Seg m p0 l 0) (hsz : ∀ z ∈ l, GET_SIZE m (HDRP z.bp) = z.sz)
    (hal : ∀ z ∈ l, GET_ALLOC m (HDRP z.bp) = 0)
    (hpos : ∀ z ∈ l, z.bp ≠ 0) (hfuel : l.length < fuel) :
    find_fit_list fuel m asize (hd l 0) =
      some (match fitIn l asize with | some z => z.bp | none => 0) := by
  induction l generalizing p0 fuel with
  | nil =>
    cases fuel with
    | zero => simp at hfuel
    | succ f => simp [find_fit_list, hd, fitIn]
  | cons z rest ih =>
    cases fuel with
    | zero => simp at hfuel
    | succ f =>
      obtain ⟨-, h2, h3⟩ := hseg
      have hz := hsz z (List.mem_cons_self _ _)
      have hz0 := hpos z (List.mem_cons_self _ _)
      have hza := hal z (List.mem_cons_self _ _)
      unfold find_fit_list
      rw [show hd (z :: rest) 0 = z.bp from rfl]
      simp only [hz, hz0, hza, ne_eq, not_false_eq_true, and_self, if_true]
      by_cases c : asize ≤ z.sz
      · simp [c, fitIn, List.find?]
      · simp only [c, if_false, h2]
        rw [ih z.bp f h3 (fun w hw => hsz w (List.mem_cons_of_mem _ hw))
          (fun w hw => hal w (List.mem_cons_of_mem _ hw))
          (fun w hw => hpos w (List.mem_cons_of_mem _ hw)) (by simp at hfuel; omega)]
        simp [fitIn, List.find?, c]

theorem fitIn_some {l : List Blk} {asize : Nat} {z : Blk} (h : fitIn l asize = some z) :
    z ∈ l ∧ asize ≤ z.sz := by
  unfold fitIn at h
  exact ⟨List.mem_of_find?_eq_some h, by simpa using List.find?_some h⟩

theorem fitIn_none {l : List Blk} {asize : Nat} (h : fitIn l asize = none) :
    ∀ z ∈ l, z.sz < asize := by
  unfold fitIn at h
  intro z hz
  have := List.find?_eq_none.1 h z hz
  simpa using this

theorem find_fit_from_eq {s : State} {bs : List Blk} {L : Nat → List Blk} {pend : List Blk}
    (h : Inv s bs L pend) (asize fuel : Nat) (hfuel : bs.length < fuel) (n c : Nat) :
    find_fit_from fuel s asize n c =
      some (match firstFit L asize n c with | some z => z.bp | none => 0) := by
  induction n generalizing c with
  | zero => simp [find_fit_from, firstFit]
  | succ n ih =>
    unfold find_fit_from firstFit
    by_cases hc : c < NUM_CLASSES
    · simp only [hc, if_true]
      have hB := h.buckets
      have hT := h.tiled
      rw [hB.head c hc, find_fit_list_eq s.mem asize (L c) 0 fuel (hB.seg c hc)
        (fun z hz => hT.size (hB.mem c hc z hz).1)
        (fun z hz => by rw [hT.alloc (hB.mem c hc z hz).1, (hB.mem c hc z hz).2.1]; rfl)
        (fun z hz => by have := hT.geo (hB.mem c hc z hz).1; omega)
        (lt_of_le_of_lt (hB.length_le hc) hfuel)]
      cases hf : fitIn (L c) asize with
      | none => simp only [ih]
      | some z =>
        have hz := (hB.mem c hc z (fitIn_some hf).1).1
        have := hT.geo hz
        have hz0 : z.bp ≠ 0 := by omega
        simp only []
    · simp [hc]

theorem firstFit_some {L : Nat → List Blk} {asize : Nat} {z : Blk} (n c : Nat)
    (h : firstFit L asize n c = some z) :
    ∃ k, c ≤ k ∧ k < NUM_CLASSES ∧ fitIn (L k) asize = some z ∧
      ∀ j, c ≤ j → j < k → fitIn (L j) asize = none := by
  induction n generalizing c with
  | zero => simp [firstFit] at h
  | succ n ih =>
    unfold firstFit at h
    by_cases hc : c < NUM_CLASSES
    · simp only [hc, if_true] at h
      cases hf : fitIn (L c) asize with
      | none =>
        rw [hf] at h
        obtain ⟨k, h1, h2, h3, h4⟩ := ih (c + 1) h
        refine ⟨k, by omega, h2, h3, fun j hj1 hj2 => ?_⟩
        by_cases e : j = c
        · rw [e]; exact hf
        · exact h4 j (by omega) hj2
      | some w =>
        rw [hf] at h
        simp only [Option.some.injEq] at h
        subst h
        exact ⟨c, le_refl _, hc, hf, fun j hj1 hj2 => by omega⟩
    · simp [hc] at h

theorem firstFit_none {L : Nat → List Blk} {asize : Nat} (n c : Nat)
    (h : firstFit L asize n c = none) :
    ∀ k, c ≤ k → k < c + n → k < NUM_CLASSES → fitIn (L k) asize = none := by
  induction n generalizing c with
  | zero => intro k h1 h2; omega
  | succ n ih =>
    intro k h1 h2 h3
    unfold firstFit at h
    have hc : c < NUM_CLASSES := by omega
    simp only [hc, if_true] at h
    cases hf : fitIn (L c) asize with
    | none =>
      rw [hf] at h
      by_cases e : k = c
      · rw [e]; exact hf
      · exact ih (c + 1) h k (by omega) (by omega) h3
    | some w => rw [hf] at h; simp at h

theorem get_size_class_loop_ge (n a c : Nat) : c ≤ get_size_class_loop n a c := by
  induction n generalizing a c with
  | zero => exact le_refl _
  | succ n ih =>
    unfold get_size_class_loop
    split
    · have := ih (a >>> 1) (c + 1); omega
    · exact le_refl _

theorem get_size_class_loop_mono (n a a' c : Nat) (h : a ≤ a') :
    get_size_class_loop n a c ≤ get_size_class_loop n a' c := by
  induction n generalizing a a' c with
  | zero => exact le_refl _
  | succ n ih =>
    unfold get_size_class_loop
    by_cases h1 : c < NUM_CLASSES - 1 ∧ a > 1
    · have h2 : c < NUM_CLASSES - 1 ∧ a' > 1 := ⟨h1.1, by omega⟩
      simp only [h1, h2, and_self, if_true]
      apply ih
      rw [Nat.shiftRight_eq_div_pow, Nat.shiftRight_eq_div_pow]
      exact Nat.div_le_div_right h
    · simp only [h1, if_false]
      split
      · have := get_size_class_loop_ge n (a' >>> 1) (c + 1); omega
      · exact le_refl _

theorem get_size_class_mono {a b : Nat} (h : a ≤ b) : get_size_class a ≤ get_size_class b := by
  unfold get_size_class
  apply get_size_class_loop_mono
  rw [Nat.shiftRight_eq_div_pow, Nat.shiftRight_eq_div_pow]
  exact Nat.div_le_div_right h

/-- What `find_fit` returns on a heap that satisfies the invariant. -/
theorem find_fit_eq {s : State} {bs : List Blk} {L : Nat → List Blk} {pend : List Blk}
    (h : Inv s bs L pend) (asize fuel : Nat) (hfuel : bs.length < fuel) :
    find_fit fuel s asize =
      some (match firstFit L asize NUM_CLASSES (get_size_class asize) with
        | some z => z.bp | none => 0) :=
  find_fit_from_eq h asize fuel hfuel _ _

/-- No fit is reported only when no free block in a bucket is large enough. -/
theorem firstFit_none_all {s : State} {bs : List Blk} {L : Nat → List Blk} {pend : List Blk}
    (h : Inv s bs L pend) {asize : Nat}
    (hn : firstFit L asize NUM_CLASSES (get_size_class asize) = none) :
    ∀ z ∈ bs, z.al = false → z ∉ pend → z.sz < asize := by
  intro z hz hf hp
  by_contra hc
  have hzL := (h.cover z hz hf).2 hp
  have hm := get_size_class_mono (Nat.le_of_not_lt hc)
  have hlt := get_size_class_lt z.sz
  have := firstFit_none _ _ hn (get_size_class z.sz) hm (by omega) hlt
  exact hc (fitIn_none this z hzL)

theorem agreeOut_trans {m m' m'' : Nat → Nat} {lo hi : Nat} (h1 : agreeOut m m' lo hi)
    (h2 : agreeOut m' m'' lo hi) : agreeOut m m'' lo hi :=
  fun x hx => (h2 x hx).trans (h1 x hx)

theorem write_block_tags (m : Nat → Nat) (p size : Nat) (al : Bool) (h8 : size % 8 = 0)
    (h24 : 24 ≤ size) (hlt : size < 2 ^ 31) (hp : 4 ≤ p) (hp64 : p + size < 2 ^ 64) :
    TagOK (write_block m p size (if al then 1 else 0)) ⟨p, size, al⟩ ∧
      agreeOut m (write_block m p size (if al then 1 else 0)) (p - 4) (p + size - 4) ∧
      NEXT_BLKP (write_block m p size (if al then 1 else 0)) p = p + size :=
  (write_tags m p size al h8 h24 hlt hp hp64).2

/-- The memory after one block was retagged as two. -/
theorem retag_two {s : State} {L : Nat → List Blk} {pend : List Blk}
    {pre mid post : List Blk} (n1 n2 : Blk)
    (h : Inv s (pre ++ mid ++ post) L pend) (hpre : pre ≠ [])
    (hca : Chain (s.heap_listp + 8) pre n1.bp) (hcm : Chain n1.bp mid (n2.bp + n2.sz))
    (hadj : n1.bp + n1.sz = n2.bp)
    (hpend : ∀ z ∈ pend, z ∈ mid) (hfree : ∀ z ∈ mid, z.al = false → z ∈ pend)
    (h18 : n1.sz % 8 = 0) (h124 : 24 ≤ n1.sz) (h28 : n2.sz % 8 = 0) (h224 : 24 ≤ n2.sz) :
    Inv { s with
        mem := write_block (write_block s.mem n1.bp n1.sz (if n1.al then 1 else 0)) n2.bp n2.sz
          (if n2.al then 1 else 0) }
      (pre ++ [n1, n2] ++ post) L ([n1, n2].filter (fun z => !z.al)) := by
  have hT := h.tiled
  have hch := hT.chain
  rw [List.append_assoc, Chain_append] at hch
  obtain ⟨a', hca', hch⟩ := hch
  have ea := Chain_unique_end _ _ _ _ hca hca'
  subst ea
  rw [Chain_append] at hch
  obtain ⟨e', hcm'', hcp⟩ := hch
  have ee := Chain_unique_end _ _ _ _ hcm hcm''
  subst ee
  have hba := Chain_le _ _ _ hca
  have heb := Chain_le _ _ _ hcp
  have := hT.brk_le
  have := hT.max_lt
  have := hT.max_lt64
  obtain ⟨ht1, hag1, -⟩ := write_block_tags s.mem n1.bp n1.sz n1.al h18 h124 (by omega) (by omega)
    (by omega)
  obtain ⟨ht2, hag2, -⟩ := write_block_tags
    (write_block s.mem n1.bp n1.sz (if n1.al then 1 else 0))
    n2.bp n2.sz n2.al h28 h224 (by omega) (by omega) (by omega)
  refine retag ([n1, n2].filter (fun z => !z.al)) [n1, n2] h hpre hca hcm
    ⟨rfl, hadj.symm, by show n1.bp + n1.sz + n2.sz = n2.bp + n2.sz; omega⟩
    hpend ?_ hfree ?_ ?_ ?_ rfl rfl rfl rfl
  · intro z hz
    exact (List.mem_filter.1 hz).1
  · intro z hz hzf
    exact List.mem_filter.2 ⟨hz, by simp [hzf]⟩
  · exact agreeOut_trans (agreeOut_mono hag1 (le_refl _) (by omega))
      (agreeOut_mono hag2 (by omega) (le_refl _))
  · intro z hz
    simp only [List.mem_cons, List.mem_singleton, List.not_mem_nil, or_false] at hz
    rcases hz with e | e
    · subst e
      obtain ⟨t1, t2, t3, t4⟩ := ht1
      simp only at t1 t2
      refine ⟨?_, ?_, t3, t4⟩
      · show get4 (write_block _ _ _ _) _ = _
        rw [get4_agree hag2 _ (by omega)]; exact t1
      · show get4 (write_block _ _ _ _) _ = _
        rw [get4_agree hag2 _ (by omega)]; exact t2
    · subst e; exact ht2

theorem NEXT_BLKP_congr (m m' : Nat → Nat) (bp : Nat) (h : get4 m' (bp - 4) = get4 m (bp - 4)) :
    NEXT_BLKP m' bp = NEXT_BLKP m bp := by
  unfold NEXT_BLKP GET_SIZE GET HDRP WSIZE
  rw [h]

theorem place_rem (csize asize : Nat) (h : asize ≤ csize) (hc : csize < 2 ^ 64) :
    (csize + (SIZE_MOD - asize)) % SIZE_MOD = csize - asize := by
  unfold SIZE_MOD; omega

/-- `place` when the remainder is too small to be a block. -/
theorem place_nosplit {s : State} {L : Nat → List Blk} {pre post : List Blk} {x b : Blk}
    (h : Inv s (pre ++ x :: b :: post) L []) (hbf : b.al = false) (asize : Nat)
    (hle : asize ≤ b.sz) (hrem : b.sz - asize < 24) (fuel : Nat) :
    ∃ s', place fuel s b.bp asize = some (b.bp, s') ∧
      Inv s' (pre ++ x :: ⟨b.bp, b.sz, true⟩ :: post)
        (Function.update L (get_size_class b.sz) ((L (get_size_class b.sz)).erase b)) [] ∧
      s'.heap_listp = s.heap_listp ∧ s'.mem_brk = s.mem_brk ∧
      s'.mem_max_addr = s.mem_max_addr := by
  have hT := h.tiled
  have hb : b ∈ pre ++ x :: b :: post := by simp
  have gb := hT.geo hb
  have hbL : b ∈ L (get_size_class b.sz) := (h.cover b hb hbf).2 (by simp)
  obtain ⟨hI1, d1, d2, d3⟩ := delete_block_inv h (get_size_class_lt _) hbL
  generalize hL1 : Function.update L (get_size_class b.sz) ((L (get_size_class b.sz)).erase b)
    = L1 at hI1 ⊢
  generalize hs1 : delete_block s b.bp = s1 at hI1 d1 d2 d3
  have hT' : Tiled s ((pre ++ [x]) ++ b :: post) := by simpa using hT
  have hch := hT'.chain
  rw [Chain_append] at hch
  obtain ⟨a, hca, hcb⟩ := hch
  have hab : a = b.bp := hcb.1.symm
  subst hab
  have hI1' : Inv s1 ((pre ++ [x]) ++ [b] ++ post) L1 [b] := by simpa using hI1
  have hI2 := retag_one ⟨b.bp, b.sz, true⟩ hI1' (by simp)
    (by rw [d1]; exact hca) ⟨rfl, rfl⟩
    (by intro z hz; simpa using hz) (by intro z hz _; simpa using hz) gb.2.2.1 gb.2.2.2.1
  simp only [if_true] at hI2
  refine ⟨{ s1 with mem := write_block s1.mem b.bp b.sz 1 }, ?_, by simpa using hI2, d1, d2, d3⟩
  unfold place
  have hr : (b.sz + (SIZE_MOD - asize)) % SIZE_MOD < MIN_BLK_SIZE := by
    rw [place_rem _ _ hle (by omega)]; exact hrem
  simp only [hT.size hb, hr, if_true, hs1]

/-- `place` when the block is split and the request is above the threshold. -/
theorem place_upper {s : State} {L : Nat → List Blk} {pre post : List Blk} {x b : Blk}
    (h : Inv s (pre ++ x :: b :: post) L []) (hbf : b.al = false) (hx : x.al = true)
    (hn : nextAl post = true) (asize : Nat) (h8 : asize % 8 = 0) (h24 : 24 ≤ asize)
    (hle : asize ≤ b.sz) (hrem : 24 ≤ b.sz - asize) (hbig : asize > 100) (fuel : Nat)
    (hfuel : (pre ++ x :: b :: post).length + 1 < fuel) :
    ∃ s', place fuel s b.bp asize = some (b.bp + (b.sz - asize), s') ∧
      Inv s' (pre ++ x :: ⟨b.bp, b.sz - asize, false⟩ :: ⟨b.bp + (b.sz - asize), asize, true⟩ :: post)
        (Function.update
          (Function.update L (get_size_class b.sz) ((L (get_size_class b.sz)).erase b))
          (get_size_class (b.sz - asize))
          (sortedInsert ⟨b.bp, b.sz - asize, false⟩
            ((Function.update L (get_size_class b.sz) ((L (get_size_class b.sz)).erase b))
              (get_size_class (b.sz - asize))))) [] ∧
      s'.heap_listp = s.heap_listp ∧ s'.mem_brk = s.mem_brk ∧
      s'.mem_max_addr = s.mem_max_addr := by
  have hT := h.tiled
  have hb : b ∈ pre ++ x :: b :: post := by simp
  have gb := hT.geo hb
  have hbL : b ∈ L (get_size_class b.sz) := (h.cover b hb hbf).2 (by simp)
  obtain ⟨hI1, d1, d2, d3⟩ := delete_block_inv h (get_size_class_lt _) hbL
  generalize hL1 : Function.update L (get_size_class b.sz) ((L (get_size_class b.sz)).erase b)
    = L1 at hI1 ⊢
  generalize hs1 : delete_block s b.bp = s1 at hI1 d1 d2 d3
  have hT' : Tiled s ((pre ++ [x]) ++ b :: post) := by simpa using hT
  have hch := hT'.chain
  rw [Chain_append] at hch
  obtain ⟨a, hca, hcb⟩ := hch
  have hab : a = b.bp := hcb.1.symm
  subst hab
  have hI1' : Inv s1 ((pre ++ [x]) ++ [b] ++ post) L1 [b] := by simpa using hI1
  have hI2 := retag_two ⟨b.bp, b.sz - asize, false⟩ ⟨b.bp + (b.sz - asize), asize, true⟩ hI1'
    (by simp) (by rw [d1]; exact hca)
    ⟨rfl, by show b.bp + b.sz = b.bp + (b.sz - asize) + asize; omega⟩ rfl
    (by intro z hz; simpa using hz) (by intro z hz _; simpa using hz)
    (by show (b.sz - asize) % 8 = 0; omega) hrem h8 h24
  simp only [Bool.false_eq_true, if_false, if_true] at hI2
  have hfil : ([⟨b.bp, b.sz - asize, false⟩, ⟨b.bp + (b.sz - asize), asize, true⟩] : List Blk).filter
      (fun z => !z.al) = [⟨b.bp, b.sz - asize, false⟩] := by simp
  rw [hfil] at hI2
  have hI2' : Inv { s1 with
      mem := write_block (write_block s1.mem b.bp (b.sz - asize) 0) (b.bp + (b.sz - asize)) asize 1 }
      (pre ++ x :: ⟨b.bp, b.sz - asize, false⟩ :: (⟨b.bp + (b.sz - asize), asize, true⟩ :: post))
      L1 [⟨b.bp, b.sz - asize, false⟩] := by simpa using hI2
  obtain ⟨s2, hc, hI3, e1, e2, e3⟩ := coalesce_case1 hI2' rfl hx rfl fuel
    (by simp at hfuel ⊢; omega)
  have hnx : NEXT_BLKP s2.mem b.bp = b.bp + (b.sz - asize) :=
    hI3.tiled.next (z := ⟨b.bp, b.sz - asize, false⟩) (by simp)
  refine ⟨s2, ?_, hI3, e1.trans d1, e2.trans d2, e3.trans d3⟩
  have g1 := hI1.tiled.geo hb
  have := hI1.tiled.brk_le
  have := hI1.tiled.max_lt
  have := hI1.tiled.max_lt64
  obtain ⟨-, -, hn3⟩ := write_block_tags s1.mem b.bp (b.sz - asize) false
    (by omega) hrem (by omega) (by omega) (by omega)
  simp only [Bool.false_eq_true, if_false] at hn3
  have hn4 : NEXT_BLKP (PUT (write_block s1.mem b.bp (b.sz - asize) 0)
      (HDRP (b.bp + (b.sz - asize))) (PACK asize 1)) b.bp = b.bp + (b.sz - asize) := by
    refine (NEXT_BLKP_congr _ _ _ ?_).trans hn3
    show get4 (put4 _ (b.bp + (b.sz - asize) - 4) _) _ = _
    apply get4_put4_ne; omega
  unfold place
  have hr : ¬ (b.sz - asize < MIN_BLK_SIZE) := by unfold MIN_BLK_SIZE; omega
  simp only [hT.size hb, place_rem _ _ hle (show b.sz < 2 ^ 64 by omega), hr, if_false, hbig,
    if_true, hs1, hn3, hn4, hc, hnx]

/-- `place` when the block is split and the request is at most the threshold. -/
theorem place_lower {s : State} {L : Nat → List Blk} {pre post : List Blk} {x b : Blk}
    (h : Inv s (pre ++ x :: b :: post) L []) (hbf : b.al = false)
    (hn : nextAl post = true) (asize : Nat) (h8 : asize % 8 = 0) (h24 : 24 ≤ asize)
    (hle : asize ≤ b.sz) (hrem : 24 ≤ b.sz - asize) (hsmall : ¬ asize > 100) (fuel : Nat)
    (hfuel : (pre ++ x :: b :: post).length + 1 < fuel) :
    ∃ s', place fuel s b.bp asize = some (b.bp, s') ∧
      Inv s' (pre ++ x :: ⟨b.bp, asize, true⟩ :: ⟨b.bp + asize, b.sz - asize, false⟩ :: post)
        (Function.update
          (Function.update L (get_size_class b.sz) ((L (get_size_class b.sz)).erase b))
          (get_size_class (b.sz - asize))
          (sortedInsert ⟨b.bp + asize, b.sz - asize, false⟩
            ((Function.update L (get_size_class b.sz) ((L (get_size_class b.sz)).erase b))
              (get_size_class (b.sz - asize))))) [] ∧
      s'.heap_listp = s.heap_listp ∧ s'.mem_brk = s.mem_brk ∧
      s'.mem_max_addr = s.mem_max_addr := by
  have hT := h.tiled
  have hb : b ∈ pre ++ x :: b :: post := by simp
  have gb := hT.geo hb
  have hbL : b ∈ L (get_size_class b.sz) := (h.cover b hb hbf).2 (by simp)
  obtain ⟨hI1, d1, d2, d3⟩ := delete_block_inv h (get_size_class_lt _) hbL
  generalize hL1 : Function.update L (get_size_class b.sz) ((L (get_size_class b.sz)).erase b)
    = L1 at hI1 ⊢
  generalize hs1 : delete_block s b.bp = s1 at hI1 d1 d2 d3
  have hT' : Tiled s ((pre ++ [x]) ++ b :: post) := by simpa using hT
  have hch := hT'.chain
  rw [Chain_append] at hch
  obtain ⟨a, hca, hcb⟩ := hch
  have hab : a = b.bp := hcb.1.symm
  subst hab
  have hI1' : Inv s1 ((pre ++ [x]) ++ [b] ++ post) L1 [b] := by simpa using hI1
  have hI2 := retag_two ⟨b.bp, asize, true⟩ ⟨b.bp + asize, b.sz - asize, false⟩ hI1'
    (by simp) (by rw [d1]; exact hca)
    ⟨rfl, by show b.bp + b.sz = b.bp + asize + (b.sz - asize); omega⟩ rfl
    (by intro z hz; simpa using hz) (by intro z hz _; simpa using hz)
    h8 h24 (by show (b.sz - asize) % 8 = 0; omega) hrem
  simp only [Bool.false_eq_true, if_false, if_true] at hI2
  have hfil : ([⟨b.bp, asize, true⟩, ⟨b.bp + asize, b.sz - asize, false⟩] : List Blk).filter
      (fun z => !z.al) = [⟨b.bp + asize, b.sz - asize, false⟩] := by simp
  rw [hfil] at hI2
  have hI2' : Inv { s1 with
      mem := write_block (write_block s1.mem b.bp asize 1) (b.bp + asize) (b.sz - asize) 0 }
      ((pre ++ [x]) ++ ⟨b.bp, asize, true⟩ :: ⟨b.bp + asize, b.sz - asize, false⟩ :: post)
      L1 [⟨b.bp + asize, b.sz - asize, false⟩] := by simpa using hI2
  obtain ⟨s2, hc, hI3, e1, e2, e3⟩ := coalesce_case1 hI2' rfl rfl hn fuel
    (by simp at hfuel ⊢; omega)
  refine ⟨s2, ?_, by simpa using hI3, e1.trans d1, e2.trans d2, e3.trans d3⟩
  have g1 := hI1.tiled.geo hb
  have := hI1.tiled.brk_le
  have := hI1.tiled.max_lt
  have := hI1.tiled.max_lt64
  obtain ⟨-, -, hn3⟩ := write_block_tags s1.mem b.bp asize true h8 h24 (by omega) (by omega)
    (by omega)
  simp only [if_true] at hn3
  have hn4 : NEXT_BLKP (PUT (write_block s1.mem b.bp asize 1)
      (HDRP (b.bp + asize)) (PACK (b.sz - asize) 0)) b.bp = b.bp + asize := by
    refine (NEXT_BLKP_congr _ _ _ ?_).trans hn3
    show get4 (put4 _ (b.bp + asize - 4) _) _ = _
    apply get4_put4_ne; omega
  have hn5 : NEXT_BLKP (write_block (write_block s1.mem b.bp asize 1) (b.bp + asize)
      (b.sz - asize) 0) b.bp = b.bp + asize := by
    have := (hI2'.tiled.next (z := ⟨b.bp, asize, true⟩) (by simp))
    exact this
  unfold place
  have hr : ¬ (b.sz - asize < MIN_BLK_SIZE) := by unfold MIN_BLK_SIZE; omega
  simp only [hT.size hb, place_rem _ _ hle (show b.sz < 2 ^ 64 by omega), hr, if_false, hsmall,
    hs1, hn3, hn4, hn5, hc]

/-- The tags of a fresh block at the end of the heap and the new epilogue. -/
theorem extend_tags {s : State} {bs : List Blk} {L : Nat → List Blk}
    (h : Inv s bs L []) (size : Nat) (h8 : size % 8 = 0) (h24 : 24 ≤ size)
    (hroom : s.mem_brk + size ≤ s.mem_max_addr) :
    Inv { s with
        mem_brk := s.mem_brk + size
        mem := PUT (write_block s.mem s.mem_brk size 0) (HDRP (s.mem_brk + size)) (PACK 0 1) }
      (bs ++ [⟨s.mem_brk, size, false⟩]) L [⟨s.mem_brk, size, false⟩] := by
  have hT := h.tiled
  have hB := h.buckets
  have hbase := Chain_le _ _ _ hT.chain
  have := hT.brk_le
  have := hT.max_lt
  have := hT.max_lt64
  obtain ⟨ht, hag, -⟩ := write_block_tags s.mem s.mem_brk size false h8 h24 (by omega) (by omega)
    (by omega)
  simp only [Bool.false_eq_true, if_false] at ht hag
  have hag' : agreeOut s.mem
      (PUT (write_block s.mem s.mem_brk size 0) (HDRP (s.mem_brk + size)) (PACK 0 1))
      (s.mem_brk - 4) (s.mem_brk + size) :=
    agreeOut_put4 (agreeOut_mono hag (le_refl _) (by omega)) _ _
      (by unfold HDRP WSIZE; omega) (by unfold HDRP WSIZE; omega)
  have hne : ∀ z ∈ bs, z ≠ (⟨s.mem_brk, size, false⟩ : Blk) := by
    intro z hz e
    have := hT.geo hz
    rw [e] at this
    simp at this
    omega
  refine ⟨⟨hT.base_pos, hroom, hT.max_lt, hT.max_lt64, ?_, ?_, ?_, ?_⟩,
    ⟨hB.head, ?_, ?_, hB.sorted, hB.nodup⟩, ?_⟩
  · have := hT.head
    cases bs with
    | nil => simp at this
    | cons x xs => simpa using this
  · exact (Chain_append _ _ _ _).2 ⟨_, hT.chain, rfl, rfl⟩
  · intro z hz
    rcases List.mem_append.1 hz with h1 | h1
    · obtain ⟨t1, t2, t3, t4⟩ := hT.tags z h1
      have := hT.geo h1
      exact ⟨by rw [← t1]; exact get4_agree hag' _ (by omega),
        by rw [← t2]; exact get4_agree hag' _ (by omega), t3, t4⟩
    · rw [List.mem_singleton] at h1
      subst h1
      obtain ⟨t1, t2, t3, t4⟩ := ht
      simp only at t1 t2
      refine ⟨?_, ?_, t3, t4⟩
      · show get4 (put4 _ (s.mem_brk + size - 4) _) (s.mem_brk - 4) = _
        rw [get4_put4_ne _ _ _ _ (by omega)]; exact t1
      · show get4 (put4 _ (s.mem_brk + size - 4) _) (s.mem_brk + size - 8) = _
        rw [get4_put4_ne _ _ _ _ (by omega)]; exact t2
  · show get4 (put4 _ (s.mem_brk + size - 4) (PACK 0 1)) (s.mem_brk + size - 4) = 1
    rw [get4_put4_same]; rfl
  · intro k hk
    apply Seg_frame s.mem _ _ _ _ _ (hB.seg k hk)
    intro z hz
    have := hT.geo (hB.mem k hk z hz).1
    exact ⟨get8_agree hag' _ (by omega), get8_agree hag' _ (by omega)⟩
  · intro k hk z hz
    have := hB.mem k hk z hz
    exact ⟨List.mem_append_left _ this.1, this.2⟩
  · intro z hz hf
    rcases List.mem_append.1 hz with h1 | h1
    · have := h.cover z h1 hf
      rw [this]
      simp [hne z h1]
    · rw [List.mem_singleton] at h1
      subst h1
      simp only [List.mem_singleton, not_true_eq_false, iff_false]
      intro hc
      exact hne _ (hB.mem _ (get_size_class_lt _) _ hc).1 rfl

/-- C12: `get_size_class` is monotonic, and its result is a bucket index: for all
sizes `a ≤ b` the class of `a` is at most the class of `b`, and every class is at
most `NUM_CLASSES - 1 = 299`. -/
theorem C12_get_size_class_mono_range :
    (∀ a b : Nat, a ≤ b → get_size_class a ≤ get_size_class b) ∧
      ∀ size : Nat, 0 ≤ get_size_class size ∧ get_size_class size ≤ 299 := by
  refine ⟨fun a b h => get_size_class_mono h, fun size => ⟨Nat.zero_le _, ?_⟩⟩
  have := get_size_class_lt size
  unfold NUM_CLASSES at this
  omega

end MM
